import Mathlib

/-!
Verification of the team-partitioning program in `sorting.py`.

The Python source is shallowly embedded: players are structures with a name
and an integer rating, a team is a finite set of players (Python `set`
semantics), and the stateful routines (`swap_between_teams`,
`initialize_teams`, `simulated_annealing`, the ILP decode loop) become pure
functions.  Randomness (`random.shuffle`, `random.sample`, `random.choice`,
`random.random`) is modelled by passing the drawn outcomes in as explicit
parameters: `initialize_teams` receives the roster in its post-shuffle
order, and each annealing iteration receives the chosen team indices, the
chosen players, and the outcome of the Metropolis draw.  Python floats are
modelled with exact arithmetic (rationals for temperatures, reals for the
`math.exp` comparison).
-/

namespace Sorting

/-- `class Player`: a named, rated entity (`sorting.py` lines 6-12).
Ratings are loaded with `int(...)`, hence integers. -/
structure Player where
  name : String
  rating : ℤ
deriving DecidableEq

instance : Inhabited Player := ⟨⟨"", 0⟩⟩

/-- `class Team`: a Python `set` of players (`sorting.py` lines 14-32). -/
structure Team where
  players : Finset Player
deriving DecidableEq

instance : Inhabited Team := ⟨⟨∅⟩⟩

/-- `Team.current_score` (line 18-19): sum of the member ratings. -/
def Team.current_score (t : Team) : ℤ :=
  ∑ p ∈ t.players, p.rating

/-- `Team.swap_players` (lines 21-24): if `old` is a member, remove it and
add `new`; otherwise leave the team unchanged. -/
def Team.swap_players (t : Team) (new old : Player) : Team :=
  if old ∈ t.players then ⟨insert new (t.players.erase old)⟩ else t

/-- `Team.contains_any` (lines 26-27): does the team contain any player of
the given collection? -/
def Team.contains_any (t : Team) (ps : List Player) : Bool :=
  ps.any fun p => p ∈ t.players

/-- `calculate_imbalance` (lines 64-67): max team score minus min team
score.  Python's `max`/`min` fault on an empty list; the embedding returns
`0` there (the case is unreachable in the program). -/
def calculate_imbalance (teams : List Team) : ℤ :=
  match teams.map Team.current_score with
  | [] => 0
  | s :: ss => ss.foldl max s - ss.foldl min s

/-- `apart_constraints.get(p, [])` (line 82): the apart map is a Python
dict, modelled as an association list; a missing key yields `[]`. -/
def apartGet (apart : List (Player × List Player)) (p : Player) : List Player :=
  (apart.lookup p).getD []

/-- `swap_between_teams` (lines 70-87).  `random.sample(teams, 2)` picks the
two distinct positions `ia ≠ ib`, `random.choice` picks `pa` from team `ia`
and `pb` from team `ib`; those draws are parameters here.  The swap is
skipped when any together-group is fully contained in either chosen team, or
when team `ia` contains a player listed as apart from `pa`, or team `ib`
contains a player listed as apart from `pb`; otherwise `pa` and `pb` trade
teams. -/
def swap_between_teams (teams : List Team) (ia ib : Nat) (pa pb : Player)
    (together : List (List Player)) (apart : List (Player × List Player)) : List Team :=
  let team_a := teams.getD ia default
  let team_b := teams.getD ib default
  if together.any (fun c => c.all fun p => p ∈ team_a.players) then teams
  else if together.any (fun c => c.all fun p => p ∈ team_b.players) then teams
  else if team_a.contains_any (apartGet apart pa) || team_b.contains_any (apartGet apart pb) then
    teams
  else
    (teams.set ia (team_a.swap_players pb pa)).set ib (team_b.swap_players pa pb)

/-- The spec's `breaks_apart(A, B, T1, T2)` predicate, stated from the
spec's words for comparison with the code: true if `T1` already contains an
entity listed as apart from `B`, or `T2` already contains an entity listed
as apart from `A` (the incoming entity checked against the pre-swap
receiving team). -/
def breaks_apart_spec (pa pb : Player) (team_a team_b : Team)
    (apart : List (Player × List Player)) : Bool :=
  team_a.contains_any (apartGet apart pb) || team_b.contains_any (apartGet apart pa)

/-- The apart-constraint test the code actually performs on line 82: the
outgoing player checked against its own current team. -/
def breaks_apart_code (pa pb : Player) (team_a team_b : Team)
    (apart : List (Player × List Player)) : Bool :=
  team_a.contains_any (apartGet apart pa) || team_b.contains_any (apartGet apart pb)

/-- The together-constraint test of lines 76-79: some together-group is
fully contained in one of the two chosen teams. -/
def breaks_together (team_a team_b : Team) (together : List (List Player)) : Bool :=
  (together.any fun c => c.all fun p => p ∈ team_a.players) ||
    (together.any fun c => c.all fun p => p ∈ team_b.players)

/-- A partition violates an apart pair when some team contains both ends of
the pair. -/
def violates_apart (teams : List Team) (p q : Player) : Bool :=
  teams.any fun t => p ∈ t.players ∧ q ∈ t.players

/-- The seeding loop of `initialize_teams` (lines 96-101): one fresh team
per together-group, skipping a group when any of its members was already
assigned by an earlier group.  State: the teams built so far and the set of
assigned players. -/
def seed_teams : List (List Player) → List Team → Finset Player → List Team × Finset Player
  | [], teams, assigned => (teams, assigned)
  | g :: gs, teams, assigned =>
    let gset := g.toFinset
    if (assigned ∩ gset).Nonempty then seed_teams gs teams assigned
    else seed_teams gs (teams ++ [⟨gset⟩]) (assigned ∪ gset)

/-- The size Python reads for team `i` (line 111): `len(teams[i].players)`
when the index exists, `0` otherwise. -/
def curAt (teams : List Team) (i : Nat) : Nat :=
  (teams.getD i default).players.card

/-- Line 115-116 of `initialize_teams`: `if i >= len(teams):
teams.append(Team([]))`. -/
def pad_team (teams : List Team) (i : Nat) : List Team :=
  if teams.length ≤ i then teams ++ [default] else teams

/-- Body of the inner `while` of `initialize_teams`, structured on the
fuel `target - cur`, which decreases by one as the counter `cur` increases
by one: while fuel is left and players remain, append a fresh empty team
if index `i` does not exist yet, then pop the last remaining player into
team `i`. -/
def fill_team_go (i : Nat) : Nat → List Team → List Player → List Team × List Player
  | 0, teams, remaining => (teams, remaining)
  | fuel + 1, teams, remaining =>
    if h : remaining = [] then (teams, remaining)
    else
      fill_team_go i fuel
        ((pad_team teams i).set i
          ⟨insert (remaining.getLast h) ((pad_team teams i).getD i default).players⟩)
        remaining.dropLast

/-- The inner `while` of `initialize_teams` (lines 114-118): while the
counter `cur` is below `target` (exactly `target - cur` rounds of fuel)
and players remain, pop the last remaining player into team `i`. -/
def fill_team (teams : List Team) (i cur target : Nat) (remaining : List Player) :
    List Team × List Player :=
  fill_team_go i (target - cur) teams remaining

/-- The outer `for i in range(num_teams)` loop of `initialize_teams`
(lines 109-121): each round computes the team's current size and its target
`team_size + (1 if extra_players > 0 else 0)`, fills the team, then
decrements the extras counter. -/
def distribute : Nat → Nat → List Team → List Player → Nat → Nat → List Team × List Player
  | 0, _, teams, remaining, _, _ => (teams, remaining)
  | n + 1, i, teams, remaining, team_size, extra =>
    let cur := curAt teams i
    let target := team_size + (if 0 < extra then 1 else 0)
    let (teams', remaining') := fill_team teams i cur target remaining
    distribute n (i + 1) teams' remaining' team_size (extra - 1)

/-- Index of the first team of minimal size, as Python's
`min(teams, key=lambda t: len(t.players))` resolves ties (line 127). -/
def argminCardAux : List Team → Nat → Nat → Nat → Nat
  | [], _, bi, _ => bi
  | t :: ts, idx, bi, bc =>
    if t.players.card < bc then argminCardAux ts (idx + 1) idx t.players.card
    else argminCardAux ts (idx + 1) bi bc

/-- Index of the first minimal-size team (line 127). -/
def argminCard : List Team → Nat
  | [] => 0
  | t :: ts => argminCardAux ts 1 0 t.players.card

/-- Index of the first minimal-size team among indices other than `skip`:
Python's `min([t for t in teams if t != smallest], ...)` (line 128), where
`!=` is object identity, so exactly the position of the smallest team is
excluded. -/
def argminCardExAux : List Team → Nat → Nat → Option (Nat × Nat) → Nat
  | [], _, _, best => (best.map Prod.fst).getD 0
  | t :: ts, idx, skip, best =>
    if idx = skip then argminCardExAux ts (idx + 1) skip best
    else
      match best with
      | none => argminCardExAux ts (idx + 1) skip (some (idx, t.players.card))
      | some (bi, bc) =>
        if t.players.card < bc then argminCardExAux ts (idx + 1) skip (some (idx, t.players.card))
        else argminCardExAux ts (idx + 1) skip (some (bi, bc))

/-- See `argminCardExAux`. -/
def argminCardEx (teams : List Team) (skip : Nat) : Nat :=
  argminCardExAux teams 0 skip none

/-- The merge loop of `initialize_teams` (lines 124-130): while more than
`num_teams` teams exist, pour the smallest team into the second smallest and
delete the smallest.  Each round removes one team, so `teams.length` rounds
of fuel always suffice. -/
def merge_loop : Nat → List Team → Nat → List Team
  | 0, teams, _ => teams
  | fuel + 1, teams, num_teams =>
    if num_teams < teams.length then
      let j := argminCard teams
      let j2 := argminCardEx teams j
      let merged :=
        (teams.set j2 ⟨(teams.getD j2 default).players ∪ (teams.getD j default).players⟩).eraseIdx j
      merge_loop fuel merged num_teams
    else teams

/-- `initialize_teams` (lines 90-132).  `random.shuffle(players)` is
modelled by the function receiving the roster in its post-shuffle order.
Seeds one team per together-group, distributes the unassigned players
round-robin, then merges smallest teams while more than `num_teams` exist. -/
def initialize_teams (players : List Player) (num_teams : Nat)
    (together : List (List Player)) : List Team :=
  let seeded := seed_teams together [] ∅
  let total := players.length
  let remaining := players.filter fun p => p ∉ seeded.2
  let team_size := total / num_teams
  let extra := total % num_teams
  let filled := distribute num_teams 0 seeded.1 remaining team_size extra
  merge_loop filled.1.length filled.1 num_teams

/-- The multiset of all team members, counted with multiplicity across
teams.  A partition is proper exactly when this equals the roster. -/
def teamsMembers (teams : List Team) : Multiset Player :=
  (teams.map fun t => t.players.val).sum

/-- Properness of a partition: every roster entity belongs to exactly one
team. -/
def proper (players : List Player) (teams : List Team) : Prop :=
  ∀ p ∈ players, teams.countP (fun t => decide (p ∈ t.players)) = 1

theorem teamsMembers_nil : teamsMembers [] = 0 := rfl

theorem teamsMembers_cons (t : Team) (ts : List Team) :
    teamsMembers (t :: ts) = t.players.val + teamsMembers ts := by
  simp [teamsMembers]

theorem teamsMembers_append (l₁ l₂ : List Team) :
    teamsMembers (l₁ ++ l₂) = teamsMembers l₁ + teamsMembers l₂ := by
  simp [teamsMembers]

theorem teamsMembers_set (l : List Team) (i : Nat) (a : Team) (h : i < l.length) :
    teamsMembers (l.set i a) + (l.getD i default).players.val
      = teamsMembers l + a.players.val := by
  induction l generalizing i with
  | nil => simp at h
  | cons t ts ih =>
    cases i with
    | zero => simp [teamsMembers_cons]; abel
    | succ n =>
      have hn : n < ts.length := by simpa using h
      have := ih n hn
      simp only [List.set, teamsMembers_cons, List.getD_cons_succ]
      rw [add_assoc, this, ← add_assoc]

theorem teamsMembers_eraseIdx (l : List Team) (j : Nat) (h : j < l.length) :
    teamsMembers (l.eraseIdx j) + (l.getD j default).players.val = teamsMembers l := by
  induction l generalizing j with
  | nil => simp at h
  | cons t ts ih =>
    cases j with
    | zero => simp [teamsMembers_cons]; exact add_comm _ _
    | succ n =>
      have hn : n < ts.length := by simpa using h
      have := ih n hn
      simp only [List.eraseIdx, teamsMembers_cons, List.getD_cons_succ]
      rw [add_assoc, this]

theorem getD_val_le (l : List Team) (j : Nat) (h : j < l.length) :
    (l.getD j default).players.val ≤ teamsMembers l := by
  induction l generalizing j with
  | nil => simp at h
  | cons t ts ih =>
    cases j with
    | zero => simp [teamsMembers_cons]
    | succ n =>
      have hn : n < ts.length := by simpa using h
      calc (ts.getD n default).players.val ≤ teamsMembers ts := ih n hn
        _ ≤ teamsMembers (t :: ts) := by
            rw [teamsMembers_cons]; exact Multiset.le_add_left _ _

theorem pair_val_le (l : List Team) (i j : Nat) (hij : i ≠ j)
    (hi : i < l.length) (hj : j < l.length) :
    (l.getD i default).players.val + (l.getD j default).players.val ≤ teamsMembers l := by
  induction l generalizing i j with
  | nil => simp at hi
  | cons t ts ih =>
    cases i with
    | zero =>
      cases j with
      | zero => exact absurd rfl hij
      | succ n =>
        have hn : n < ts.length := by simpa using hj
        simp only [List.getD_cons_zero, List.getD_cons_succ, teamsMembers_cons]
        exact add_le_add le_rfl (getD_val_le ts n hn)
    | succ m =>
      cases j with
      | zero =>
        have hm : m < ts.length := by simpa using hi
        simp only [List.getD_cons_zero, List.getD_cons_succ, teamsMembers_cons]
        rw [add_comm]
        exact add_le_add le_rfl (getD_val_le ts m hm)
      | succ n =>
        have hm : m < ts.length := by simpa using hi
        have hn : n < ts.length := by simpa using hj
        simp only [List.getD_cons_succ, teamsMembers_cons]
        calc (ts.getD m default).players.val + (ts.getD n default).players.val
            ≤ teamsMembers ts := ih m n (by omega) hm hn
          _ ≤ t.players.val + teamsMembers ts := Multiset.le_add_left _ _

theorem count_teamsMembers (l : List Team) (p : Player) :
    (l.countP fun t => decide (p ∈ t.players)) = Multiset.count p (teamsMembers l) := by
  induction l with
  | nil => simp [teamsMembers_nil]
  | cons t ts ih =>
    rw [List.countP_cons, teamsMembers_cons, Multiset.count_add, ih]
    by_cases h : p ∈ t.players
    · simp [h, Multiset.count_eq_one_of_mem t.players.nodup h, add_comm]
    · simp [h, Multiset.count_eq_zero_of_not_mem h]

theorem proper_of_members (players : List Player) (teams : List Team)
    (hnd : players.Nodup) (h : teamsMembers teams = (players : Multiset Player)) :
    proper players teams := by
  intro p hp
  rw [count_teamsMembers, h]
  simpa using List.count_eq_one_of_mem hnd hp

theorem pad_team_getD (teams : List Team) (i j : Nat) :
    ((pad_team teams i).getD j default) = teams.getD j default := by
  unfold pad_team
  split
  · rcases Nat.lt_trichotomy j teams.length with h | h | h
    · rw [List.getD_append _ _ _ _ h]
    · subst h
      rw [List.getD_append_right _ _ _ _ le_rfl, List.getD_eq_default _ _ le_rfl]
      simp
    · rw [List.getD_eq_default _ _ (by simp; omega), List.getD_eq_default _ _ (by omega)]
  · rfl

theorem getD_set_ne (l : List Team) (m n : Nat) (a : Team) (h : m ≠ n) :
    (l.set m a).getD n default = l.getD n default := by
  simp [List.getD_eq_getElem?_getD, List.getElem?_set_ne h]

theorem getD_set_self (l : List Team) (i : Nat) (a : Team) (h : i < l.length) :
    (l.set i a).getD i default = a := by
  simp [List.getD_eq_getElem?_getD, List.getElem?_set_self, h]

theorem pad_team_length (teams : List Team) (i : Nat) (h : i ≤ teams.length) :
    (pad_team teams i).length = if teams.length ≤ i then i + 1 else teams.length := by
  unfold pad_team
  split <;> simp <;> omega

theorem pad_team_members (teams : List Team) (i : Nat) :
    teamsMembers (pad_team teams i) = teamsMembers teams := by
  unfold pad_team
  split
  · rw [teamsMembers_append]
    simp [teamsMembers, default]
  · rfl

theorem fill_team_go_nil (i : Nat) (fuel : Nat) (teams : List Team) :
    fill_team_go i fuel teams [] = (teams, []) := by
  cases fuel with
  | zero => rfl
  | succ m => simp [fill_team_go]

theorem fill_team_stop (teams : List Team) (i cur target : Nat) (remaining : List Player)
    (h : ¬(cur < target ∧ remaining ≠ [])) :
    fill_team teams i cur target remaining = (teams, remaining) := by
  unfold fill_team
  rcases Decidable.not_and_iff_or_not.mp h with h1 | h2
  · rw [Nat.sub_eq_zero_of_le (by omega)]
    rfl
  · have : remaining = [] := by
      by_contra hne
      exact h2 hne
    subst this
    exact fill_team_go_nil i _ teams

theorem fill_team_step (teams : List Team) (i cur target : Nat) (remaining : List Player)
    (hc : cur < target) (hne : remaining ≠ []) :
    fill_team teams i cur target remaining =
      fill_team
        ((pad_team teams i).set i
          ⟨insert (remaining.getLast hne) ((pad_team teams i).getD i default).players⟩)
        i (cur + 1) target remaining.dropLast := by
  unfold fill_team
  have hfuel : target - cur = (target - (cur + 1)) + 1 := by omega
  rw [hfuel]
  simp only [fill_team_go]
  rw [dif_neg hne]

/-- The pop loop removes `min (target - cur) remaining.length` players from
the tail of `remaining`. -/
theorem fill_rem_length (target : Nat) : ∀ (fuel cur : Nat), fuel = target - cur →
    ∀ (teams : List Team) (i : Nat) (remaining : List Player),
    (fill_team teams i cur target remaining).2.length
      = remaining.length - (target - cur) := by
  intro fuel
  induction fuel with
  | zero =>
    intro cur hfuel teams i remaining
    have hc : ¬ cur < target := by omega
    rw [fill_team_stop _ _ _ _ _ (by tauto)]
    show remaining.length = remaining.length - (target - cur)
    omega
  | succ n ih =>
    intro cur hfuel teams i remaining
    by_cases hne : remaining = []
    · subst hne
      rw [fill_team_stop _ _ _ _ _ (by tauto)]
      simp
    · have hc : cur < target := by omega
      rw [fill_team_step _ _ _ _ _ hc hne]
      rw [ih (cur + 1) (by omega) _ i remaining.dropLast]
      have hlen : 0 < remaining.length := List.length_pos.mpr hne
      rw [List.length_dropLast]
      omega

/-- The remaining list after the pop loop is a prefix of the one before. -/
theorem fill_rem_take (target : Nat) : ∀ (fuel cur : Nat), fuel = target - cur →
    ∀ (teams : List Team) (i : Nat) (remaining : List Player),
    (fill_team teams i cur target remaining).2
      = remaining.take (remaining.length - (target - cur)) := by
  intro fuel
  induction fuel with
  | zero =>
    intro cur hfuel teams i remaining
    have hc : ¬ cur < target := by omega
    rw [fill_team_stop _ _ _ _ _ (by tauto)]
    have : target - cur = 0 := by omega
    rw [this]
    simp
  | succ n ih =>
    intro cur hfuel teams i remaining
    by_cases hne : remaining = []
    · subst hne
      rw [fill_team_stop _ _ _ _ _ (by tauto)]
      simp
    · have hc : cur < target := by omega
      rw [fill_team_step _ _ _ _ _ hc hne]
      rw [ih (cur + 1) (by omega) _ i remaining.dropLast]
      have hlen : 0 < remaining.length := List.length_pos.mpr hne
      rw [List.dropLast_eq_take, List.take_take]
      congr 1
      rw [List.length_take]
      omega

/-- The pop loop never touches a team at an index other than `i`. -/
theorem fill_getD_ne (target : Nat) : ∀ (fuel cur : Nat), fuel = target - cur →
    ∀ (teams : List Team) (i : Nat) (remaining : List Player) (j : Nat), j ≠ i →
    (fill_team teams i cur target remaining).1.getD j default = teams.getD j default := by
  intro fuel
  induction fuel with
  | zero =>
    intro cur hfuel teams i remaining j hj
    have hc : ¬ cur < target := by omega
    rw [fill_team_stop _ _ _ _ _ (by tauto)]
  | succ n ih =>
    intro cur hfuel teams i remaining j hj
    by_cases hne : remaining = []
    · subst hne
      rw [fill_team_stop _ _ _ _ _ (by tauto)]
    · have hc : cur < target := by omega
      rw [fill_team_step _ _ _ _ _ hc hne]
      rw [ih (cur + 1) (by omega) _ i remaining.dropLast j hj]
      rw [getD_set_ne _ _ _ _ (by omega), pad_team_getD]

/-- Length of the team list after the pop loop. -/
theorem fill_length (target : Nat) : ∀ (fuel cur : Nat), fuel = target - cur →
    ∀ (teams : List Team) (i : Nat) (remaining : List Player), i ≤ teams.length →
    (fill_team teams i cur target remaining).1.length
      = if cur < target ∧ remaining ≠ [] then max teams.length (i + 1) else teams.length := by
  intro fuel
  induction fuel with
  | zero =>
    intro cur hfuel teams i remaining hi
    have hc : ¬ cur < target := by omega
    rw [fill_team_stop _ _ _ _ _ (by tauto), if_neg (by tauto)]
  | succ n ih =>
    intro cur hfuel teams i remaining hi
    by_cases hne : remaining = []
    · subst hne
      rw [fill_team_stop _ _ _ _ _ (by tauto), if_neg (by tauto)]
    · have hc : cur < target := by omega
      rw [fill_team_step _ _ _ _ _ hc hne, if_pos ⟨hc, hne⟩]
      have hpadlen : ((pad_team teams i).set i
          ⟨insert (remaining.getLast hne)
            ((pad_team teams i).getD i default).players⟩).length
          = max teams.length (i + 1) := by
        rw [List.length_set, pad_team_length _ _ hi]
        split <;> omega
      rw [ih (cur + 1) (by omega) _ i remaining.dropLast (by omega)]
      split <;> rw [hpadlen] <;> omega

/-- Size of team `i` after the pop loop: it grows by exactly
`target - cur` when enough fresh players remain. -/
theorem fill_card (target : Nat) : ∀ (fuel cur : Nat), fuel = target - cur →
    ∀ (teams : List Team) (i : Nat) (remaining : List Player),
    i ≤ teams.length → remaining.Nodup →
    (∀ p ∈ remaining, p ∉ (teams.getD i default).players) →
    target - cur ≤ remaining.length →
    curAt (fill_team teams i cur target remaining).1 i = curAt teams i + (target - cur) := by
  intro fuel
  induction fuel with
  | zero =>
    intro cur hfuel teams i remaining hi hnd hfresh hlen
    have hc : ¬ cur < target := by omega
    rw [fill_team_stop _ _ _ _ _ (by tauto)]
    show curAt teams i = curAt teams i + (target - cur)
    omega
  | succ n ih =>
    intro cur hfuel teams i remaining hi hnd hfresh hlen
    by_cases hne : remaining = []
    · subst hne
      simp at hlen
      omega
    · have hc : cur < target := by omega
      rw [fill_team_step _ _ _ _ _ hc hne]
      have hrlen : 0 < remaining.length := List.length_pos.mpr hne
      set p := remaining.getLast hne with hp
      have hpmem : p ∈ remaining := List.getLast_mem hne
      have hsplit : remaining.dropLast ++ [p] = remaining := List.dropLast_append_getLast hne
      have hnd2 : (remaining.dropLast ++ [p]).Nodup := by rw [hsplit]; exact hnd
      have hpd : p ∉ remaining.dropLast := by
        rcases List.nodup_append.mp hnd2 with ⟨-, -, hdisj⟩
        intro hmem
        exact hdisj hmem (by simp)
      have hpadlen : i < (pad_team teams i).length := by
        rw [pad_team_length _ _ hi]
        split <;> omega
      have hgdpad : (pad_team teams i).getD i default = teams.getD i default :=
        pad_team_getD teams i i
      rw [hgdpad]
      have hgd : (((pad_team teams i).set i
          ⟨insert p (teams.getD i default).players⟩)).getD i default
          = ⟨insert p (teams.getD i default).players⟩ := getD_set_self _ _ _ hpadlen
      rw [ih (cur + 1) (by omega) _ i remaining.dropLast
        (le_of_lt (by rw [List.length_set]; exact hpadlen))
        (hnd.sublist (List.dropLast_sublist remaining))
        (by
          intro q hq
          rw [hgd]
          intro hqmem
          rcases Finset.mem_insert.mp hqmem with hqp | hqs
          · exact hpd (hqp ▸ hq)
          · exact hfresh q (List.mem_of_mem_dropLast hq) hqs)
        (by rw [List.length_dropLast]; omega)]
      simp only [curAt]
      rw [hgd]
      rw [Finset.card_insert_of_not_mem (hfresh p hpmem)]
      omega

/-- The pop loop conserves the multiset of players: what leaves `remaining`
enters team `i`. -/
theorem fill_members (P : Multiset Player) (hP : ∀ p, Multiset.count p P ≤ 1)
    (target : Nat) : ∀ (fuel cur : Nat), fuel = target - cur →
    ∀ (teams : List Team) (i : Nat) (remaining : List Player),
    teamsMembers teams + (remaining : Multiset Player) = P →
    (cur < target → remaining ≠ [] → i ≤ teams.length) →
    teamsMembers (fill_team teams i cur target remaining).1
      + ((fill_team teams i cur target remaining).2 : Multiset Player) = P := by
  intro fuel
  induction fuel with
  | zero =>
    intro cur hfuel teams i remaining hinv hK
    have hc : ¬ cur < target := by omega
    rw [fill_team_stop _ _ _ _ _ (by tauto)]
    exact hinv
  | succ n ih =>
    intro cur hfuel teams i remaining hinv hK
    by_cases hne : remaining = []
    · rw [fill_team_stop _ _ _ _ _ (by tauto)]
      exact hinv
    · have hc : cur < target := by omega
      have hi : i ≤ teams.length := hK hc hne
      rw [fill_team_step _ _ _ _ _ hc hne]
      have hpadlen : i < (pad_team teams i).length := by
        rw [pad_team_length _ _ hi]
        split <;> omega
      have hgdpad : (pad_team teams i).getD i default = teams.getD i default :=
        pad_team_getD teams i i
      rw [hgdpad]
      set p := remaining.getLast hne with hp
      have hpmem : p ∈ remaining := List.getLast_mem hne
      have hcount : Multiset.count p (teamsMembers teams)
          + Multiset.count p (remaining : Multiset Player) = Multiset.count p P := by
        rw [← Multiset.count_add, hinv]
      have hcrem : 1 ≤ Multiset.count p (remaining : Multiset Player) := by
        rw [Multiset.coe_count]
        exact List.count_pos_iff.mpr hpmem
      have hct : Multiset.count p (teamsMembers teams) = 0 := by
        have := hP p
        omega
      have hpnot : p ∉ (teams.getD i default).players := by
        rcases Nat.lt_or_ge i teams.length with hlt | hge
        · intro hmem
          have h1 : 1 ≤ Multiset.count p (teams.getD i default).players.val := by
            rw [Multiset.count_eq_one_of_mem (teams.getD i default).players.nodup hmem]
          have h2 := Multiset.count_le_of_le p (getD_val_le teams i hlt)
          omega
        · rw [List.getD_eq_default _ _ hge]
          simp [default]
      have hmem'' : teamsMembers ((pad_team teams i).set i
          ⟨insert p (teams.getD i default).players⟩)
          = teamsMembers teams + {p} := by
        have hset := teamsMembers_set (pad_team teams i) i
          ⟨insert p (teams.getD i default).players⟩ hpadlen
        rw [pad_team_members, hgdpad] at hset
        have hval : (⟨insert p (teams.getD i default).players⟩ : Team).players.val
            = p ::ₘ (teams.getD i default).players.val := by
          show (insert p (teams.getD i default).players).val = _
          rw [Finset.insert_val, Multiset.ndinsert_of_not_mem hpnot]
        rw [hval] at hset
        have hcons : p ::ₘ (teams.getD i default).players.val
            = {p} + (teams.getD i default).players.val := by
          rw [Multiset.singleton_add]
        rw [hcons, ← add_assoc] at hset
        exact add_right_cancel hset
      have hrem : (remaining : Multiset Player)
          = (remaining.dropLast : Multiset Player) + {p} := by
        conv_lhs => rw [← List.dropLast_append_getLast hne]
        rw [← Multiset.coe_add]
        rfl
      rw [ih (cur + 1) (by omega) _ i remaining.dropLast
        (by rw [hmem'']; rw [hrem] at hinv; rw [← hinv]; abel)
        (by
          intro _ _
          rw [List.length_set]
          omega)]

/-- Capacity still available in rounds `i, i+1, …, i+n-1` of the
distribution loop: the sum over those rounds of `target - current size`,
where the round targets follow the decrementing `extra` counter. -/
def cap (ts : Nat) : Nat → Nat → Nat → List Team → Nat
  | 0, _, _, _ => 0
  | n + 1, i, extra, teams =>
    (ts + (if 0 < extra then 1 else 0) - curAt teams i) + cap ts n (i + 1) (extra - 1) teams

theorem cap_stable (ts : Nat) : ∀ (n i extra : Nat) (teams teams' : List Team),
    (∀ j, i ≤ j → curAt teams' j = curAt teams j) →
    cap ts n i extra teams' = cap ts n i extra teams := by
  intro n
  induction n with
  | zero => intros; rfl
  | succ m ih =>
    intro i extra teams teams' h
    simp only [cap]
    rw [h i le_rfl, ih (i + 1) (extra - 1) teams teams' (fun j hj => h j (by omega))]

/-- Sum of the sizes of teams `i, …, i+n-1`. -/
def sumCur (teams : List Team) : Nat → Nat → Nat
  | _, 0 => 0
  | i, n + 1 => curAt teams i + sumCur teams (i + 1) n

theorem cap_ge (ts : Nat) : ∀ (n i extra : Nat) (teams : List Team),
    n * ts + min extra n ≤ cap ts n i extra teams + sumCur teams i n := by
  intro n
  induction n with
  | zero => intros; simp [cap, sumCur]
  | succ m ih =>
    intro i extra teams
    have h1 := ih (i + 1) (extra - 1) teams
    simp only [cap, sumCur]
    rw [Nat.succ_mul]
    split_ifs with h
    · omega
    · omega

theorem sumCur_le (teams : List Team) : ∀ (n i : Nat),
    sumCur teams i n ≤ Multiset.card (teamsMembers (teams.drop i)) := by
  intro n
  induction n with
  | zero => intro i; simp [sumCur]
  | succ m ih =>
    intro i
    simp only [sumCur]
    rcases Nat.lt_or_ge i teams.length with hlt | hge
    · have hdrop : teams.drop i = teams.getD i default :: teams.drop (i + 1) := by
        rw [List.getD_eq_getElem _ _ hlt]
        exact List.drop_eq_getElem_cons hlt
      rw [hdrop, teamsMembers_cons, Multiset.card_add]
      have := ih (i + 1)
      have hcur : curAt teams i = Multiset.card (teams.getD i default).players.val := rfl
      omega
    · have hdrop : teams.drop i = [] := List.drop_eq_nil_of_le hge
      have hdrop1 : teams.drop (i + 1) = [] := List.drop_eq_nil_of_le (by omega)
      have := ih (i + 1)
      rw [hdrop1] at this
      rw [hdrop]
      have hcur : curAt teams i = 0 := by
        unfold curAt
        rw [List.getD_eq_default _ _ hge]
        rfl
      omega

theorem curAt_congr {l l' : List Team} {j : Nat}
    (h : l.getD j default = l'.getD j default) : curAt l j = curAt l' j := by
  unfold curAt
  rw [h]

theorem distribute_succ (n i : Nat) (teams : List Team) (remaining : List Player)
    (ts extra : Nat) :
    distribute (n + 1) i teams remaining ts extra
      = distribute n (i + 1)
          (fill_team teams i (curAt teams i) (ts + (if 0 < extra then 1 else 0)) remaining).1
          (fill_team teams i (curAt teams i) (ts + (if 0 < extra then 1 else 0)) remaining).2
          ts (extra - 1) := rfl

/-- Main invariant of the distribution loop: if the remaining players fit
into the remaining capacity, the loop consumes them all and conserves the
roster multiset. -/
theorem distribute_main (players : List Player) (hnd : players.Nodup) :
    ∀ (n i : Nat) (teams : List Team) (remaining : List Player) (ts extra : Nat),
    teamsMembers teams + (remaining : Multiset Player) = (players : Multiset Player) →
    remaining.length ≤ cap ts n i extra teams →
    (remaining ≠ [] → i ≤ teams.length ∨ (ts = 0 ∧ extra = 0)) →
    teamsMembers (distribute n i teams remaining ts extra).1 = (players : Multiset Player)
      ∧ (distribute n i teams remaining ts extra).2 = [] := by
  have hP : ∀ p, Multiset.count p (players : Multiset Player) ≤ 1 := fun p => by
    rw [Multiset.coe_count]
    exact List.nodup_iff_count_le_one.mp hnd p
  intro n
  induction n with
  | zero =>
    intro i teams remaining ts extra hinv hcap hK
    simp only [cap] at hcap
    have hrem : remaining = [] := List.length_eq_zero.mp (by omega)
    subst hrem
    simp only [distribute]
    constructor
    · simpa using hinv
    · trivial
  | succ m ih =>
    intro i teams remaining ts extra hinv hcap hK
    rw [distribute_succ]
    have hKf : curAt teams i < ts + (if 0 < extra then 1 else 0) → remaining ≠ [] →
        i ≤ teams.length := by
      intro hc hne
      rcases hK hne with h | ⟨h0, h1⟩
      · exact h
      · rw [h0, h1] at hc
        simp at hc
    have hmem := fill_members _ hP (ts + (if 0 < extra then 1 else 0))
      ((ts + (if 0 < extra then 1 else 0)) - curAt teams i) (curAt teams i) rfl
      teams i remaining hinv hKf
    have hlen := fill_rem_length (ts + (if 0 < extra then 1 else 0))
      ((ts + (if 0 < extra then 1 else 0)) - curAt teams i) (curAt teams i) rfl
      teams i remaining
    have hgd := fun (j : Nat) (hj : j ≠ i) =>
      fill_getD_ne (ts + (if 0 < extra then 1 else 0))
        ((ts + (if 0 < extra then 1 else 0)) - curAt teams i) (curAt teams i) rfl
        teams i remaining j hj
    have hcap' : (fill_team teams i (curAt teams i)
          (ts + (if 0 < extra then 1 else 0)) remaining).2.length
        ≤ cap ts m (i + 1) (extra - 1)
          (fill_team teams i (curAt teams i)
            (ts + (if 0 < extra then 1 else 0)) remaining).1 := by
      have hstable : cap ts m (i + 1) (extra - 1)
            (fill_team teams i (curAt teams i)
              (ts + (if 0 < extra then 1 else 0)) remaining).1
          = cap ts m (i + 1) (extra - 1) teams :=
        cap_stable ts m (i + 1) (extra - 1) teams _ (fun j hj =>
          curAt_congr (hgd j (by omega)))
      rw [hstable, hlen]
      simp only [cap] at hcap
      omega
    have hK' : (fill_team teams i (curAt teams i)
          (ts + (if 0 < extra then 1 else 0)) remaining).2 ≠ [] →
        (i + 1) ≤ (fill_team teams i (curAt teams i)
          (ts + (if 0 < extra then 1 else 0)) remaining).1.length
        ∨ (ts = 0 ∧ (extra - 1) = 0) := by
      intro hne'
      have hrne : remaining ≠ [] := by
        intro h
        subst h
        rw [fill_team_stop _ _ _ _ _ (by tauto)] at hne'
        exact hne' rfl
      rcases hK hrne with hi | ⟨h0, h1⟩
      · by_cases hc : curAt teams i < ts + (if 0 < extra then 1 else 0)
        · left
          rw [fill_length _ _ _ rfl teams i remaining hi, if_pos ⟨hc, hrne⟩]
          omega
        · rcases Nat.lt_or_ge i teams.length with hlt | hge
          · left
            rw [fill_length _ _ _ rfl teams i remaining hi, if_neg (by tauto)]
            omega
          · right
            have hieq : i = teams.length := le_antisymm hi hge
            have hcur0 : curAt teams i = 0 := by
              unfold curAt
              rw [List.getD_eq_default _ _ (le_of_eq hieq.symm)]
              rfl
            rw [hcur0] at hc
            constructor
            · omega
            · by_cases hex : 0 < extra
              · rw [if_pos hex] at hc
                omega
              · omega
      · exact Or.inr ⟨h0, by omega⟩
    exact ih (i + 1) _ _ ts (extra - 1) hmem hcap' hK'

/-- The seeding loop produces teams whose combined membership is exactly the
assigned set, and assigns only roster members. -/
theorem seed_spec (P0 : Finset Player) :
    ∀ (gs : List (List Player)) (teams : List Team) (assigned : Finset Player),
    teamsMembers teams = assigned.val →
    (∀ g ∈ gs, ∀ p ∈ g, p ∈ P0) →
    assigned ⊆ P0 →
    teamsMembers (seed_teams gs teams assigned).1 = (seed_teams gs teams assigned).2.val
      ∧ (seed_teams gs teams assigned).2 ⊆ P0 := by
  intro gs
  induction gs with
  | nil => intro teams assigned h hg hsub; exact ⟨h, hsub⟩
  | cons g gs ih =>
    intro teams assigned h hg hsub
    simp only [seed_teams]
    split
    · exact ih teams assigned h (fun g' hg' => hg g' (by simp [hg'])) hsub
    · rename_i hne
      apply ih
      · have hdisj : Disjoint assigned g.toFinset := by
          rw [Finset.disjoint_iff_inter_eq_empty]
          exact Finset.not_nonempty_iff_eq_empty.mp hne
        rw [teamsMembers_append, h]
        have hu : (assigned ∪ g.toFinset).val = assigned.val + g.toFinset.val := by
          rw [← Finset.disjUnion_eq_union _ _ hdisj]
          rfl
        rw [hu]
        congr 1
        show g.toFinset.val + 0 = g.toFinset.val
        rw [add_zero]
      · exact fun g' hg' => hg g' (by simp [hg'])
      · intro p hp
        rcases Finset.mem_union.mp hp with hp | hp
        · exact hsub hp
        · exact hg g (by simp) p (List.mem_toFinset.mp hp)

theorem argminCardAux_lt : ∀ (ts : List Team) (idx bi bc : Nat), bi < idx →
    argminCardAux ts idx bi bc < idx + ts.length := by
  intro ts
  induction ts with
  | nil =>
    intro idx bi bc h
    simp only [argminCardAux]
    omega
  | cons t ts ih =>
    intro idx bi bc h
    simp only [argminCardAux, List.length_cons]
    split
    · have := ih (idx + 1) idx t.players.card (by omega)
      omega
    · have := ih (idx + 1) bi bc (by omega)
      omega

theorem argminCard_lt (teams : List Team) (h : teams ≠ []) :
    argminCard teams < teams.length := by
  cases teams with
  | nil => exact absurd rfl h
  | cons t ts =>
    simp only [argminCard, List.length_cons]
    have := argminCardAux_lt ts 1 0 t.players.card (by omega)
    omega

theorem argminCardExAux_spec : ∀ (ts : List Team) (idx skip : Nat)
    (best : Option (Nat × Nat)),
    (∀ bi bc, best = some (bi, bc) → bi < idx ∧ bi ≠ skip) →
    (best = none → ∃ d, d < ts.length ∧ idx + d ≠ skip) →
    argminCardExAux ts idx skip best < idx + ts.length
      ∧ argminCardExAux ts idx skip best ≠ skip := by
  intro ts
  induction ts with
  | nil =>
    intro idx skip best h1 h2
    cases best with
    | none =>
      rcases h2 rfl with ⟨d, hd, -⟩
      simp at hd
    | some pr =>
      rcases pr with ⟨bi, bc⟩
      rcases h1 bi bc rfl with ⟨hlt, hskip⟩
      have hres : argminCardExAux [] idx skip (some (bi, bc)) = bi := rfl
      rw [hres]
      exact ⟨by simpa using hlt, hskip⟩
  | cons t ts ih =>
    intro idx skip best h1 h2
    cases best with
    | none =>
      simp only [argminCardExAux, List.length_cons]
      split
      · rename_i heq
        have hnext : (none : Option (Nat × Nat)) = none →
            ∃ d, d < ts.length ∧ (idx + 1) + d ≠ skip := by
          intro _
          rcases h2 rfl with ⟨d, hd, hne⟩
          have hd' : d < ts.length + 1 := by simpa using hd
          have hd0 : d ≠ 0 := by omega
          exact ⟨d - 1, by omega, by omega⟩
        have := ih (idx + 1) skip none (by intro bi bc hb; cases hb) hnext
        exact ⟨by omega, this.2⟩
      · rename_i hne
        have := ih (idx + 1) skip (some (idx, t.players.card))
          (fun bi' bc' hb => by
            injection hb with hb
            injection hb with hb1 hb2
            exact ⟨by omega, by rw [← hb1]; exact hne⟩)
          (by intro h; cases h)
        exact ⟨by omega, this.2⟩
    | some pr =>
      rcases pr with ⟨bi, bc⟩
      rcases h1 bi bc rfl with ⟨hbi, hbs⟩
      simp only [argminCardExAux, List.length_cons]
      split
      · have := ih (idx + 1) skip (some (bi, bc))
          (fun bi' bc' hb => by
            injection hb with hb
            injection hb with hb1 hb2
            exact ⟨by omega, by rw [← hb1]; exact hbs⟩)
          (by intro h; cases h)
        exact ⟨by omega, this.2⟩
      · split
        · have := ih (idx + 1) skip (some (idx, t.players.card))
            (fun bi' bc' hb => by
              injection hb with hb
              injection hb with hb1 hb2
              exact ⟨by omega, by rw [← hb1]; rename_i hne _; exact hne⟩)
            (by intro h; cases h)
          exact ⟨by omega, this.2⟩
        · have := ih (idx + 1) skip (some (bi, bc))
            (fun bi' bc' hb => by
              injection hb with hb
              injection hb with hb1 hb2
              exact ⟨by omega, by rw [← hb1]; exact hbs⟩)
            (by intro h; cases h)
          exact ⟨by omega, this.2⟩

theorem merge_loop_of_le : ∀ (fuel : Nat) (teams : List Team) (k : Nat),
    ¬ k < teams.length → merge_loop fuel teams k = teams := by
  intro fuel teams k h
  cases fuel with
  | zero => rfl
  | succ m =>
    simp only [merge_loop]
    rw [if_neg h]

/-- The merge loop conserves the multiset of members. -/
theorem merge_loop_members (players : List Player) (hnd : players.Nodup) :
    ∀ (fuel : Nat) (teams : List Team) (k : Nat), 1 ≤ k →
    teamsMembers teams = (players : Multiset Player) →
    teamsMembers (merge_loop fuel teams k) = (players : Multiset Player) := by
  intro fuel
  induction fuel with
  | zero => intro teams k hk h; exact h
  | succ m ih =>
    intro teams k hk h
    simp only [merge_loop]
    split
    · rename_i hlen
      have h2 : 2 ≤ teams.length := by omega
      have hj : argminCard teams < teams.length :=
        argminCard_lt teams (by
          intro h0
          rw [h0] at hlen
          simp at hlen)
      have hex := argminCardExAux_spec teams 0 (argminCard teams) none
        (by intro bi bc hb; cases hb)
        (by
          intro _
          by_cases hj0 : argminCard teams = 0
          · exact ⟨1, by omega, by omega⟩
          · exact ⟨0, by omega, by omega⟩)
      have hj2 : argminCardEx teams (argminCard teams) < teams.length := by
        have := hex.1
        simpa [argminCardEx] using this
      have hjne : argminCardEx teams (argminCard teams) ≠ argminCard teams := hex.2
      set j := argminCard teams with hjdef
      set j2 := argminCardEx teams j with hj2def
      have hP : ∀ p, Multiset.count p (players : Multiset Player) ≤ 1 := fun p => by
        rw [Multiset.coe_count]
        exact List.nodup_iff_count_le_one.mp hnd p
      have hdisj : Disjoint (teams.getD j2 default).players (teams.getD j default).players := by
        rw [Finset.disjoint_left]
        intro p hp2 hpj
        have hle := pair_val_le teams j2 j hjne hj2 hj
        have hcnt := Multiset.count_le_of_le p hle
        rw [h, Multiset.count_add] at hcnt
        have hc2 : Multiset.count p (teams.getD j2 default).players.val = 1 :=
          Multiset.count_eq_one_of_mem (teams.getD j2 default).players.nodup hp2
        have hcj : Multiset.count p (teams.getD j default).players.val = 1 :=
          Multiset.count_eq_one_of_mem (teams.getD j default).players.nodup hpj
        have := hP p
        omega
      apply ih _ k hk
      have hval : (⟨(teams.getD j2 default).players ∪ (teams.getD j default).players⟩ :
          Team).players.val
          = (teams.getD j2 default).players.val + (teams.getD j default).players.val := by
        show ((teams.getD j2 default).players ∪ (teams.getD j default).players).val = _
        rw [← Finset.disjUnion_eq_union _ _ hdisj]
        rfl
      have hset := teamsMembers_set teams j2
        ⟨(teams.getD j2 default).players ∪ (teams.getD j default).players⟩ hj2
      rw [hval] at hset
      have hMset : teamsMembers (teams.set j2
          ⟨(teams.getD j2 default).players ∪ (teams.getD j default).players⟩)
          = teamsMembers teams + (teams.getD j default).players.val := by
        rw [← add_assoc, add_right_comm] at hset
        exact add_right_cancel hset
      have hgdj : (teams.set j2
          ⟨(teams.getD j2 default).players ∪ (teams.getD j default).players⟩).getD j default
          = teams.getD j default := getD_set_ne _ _ _ _ (by omega)
      have herase := teamsMembers_eraseIdx (teams.set j2
          ⟨(teams.getD j2 default).players ∪ (teams.getD j default).players⟩) j
        (by rw [List.length_set]; exact hj)
      rw [hgdj, hMset] at herase
      have := add_right_cancel herase
      rw [this, h]
    · exact h

/-- `initialize_teams` conserves the roster: its teams hold every roster
entity exactly once (for a duplicate-free roster, `num_teams ≥ 1`, and
together-groups drawn from the roster). -/
theorem initialize_teams_members (players : List Player) (k : Nat)
    (together : List (List Player)) (hnd : players.Nodup) (hk : 1 ≤ k)
    (hg : ∀ g ∈ together, ∀ p ∈ g, p ∈ players) :
    teamsMembers (initialize_teams players k together) = (players : Multiset Player) := by
  have hseed := seed_spec players.toFinset together [] ∅ rfl
    (fun g hg' p hp => List.mem_toFinset.mpr (hg g hg' p hp))
    (Finset.empty_subset _)
  set A := (seed_teams together [] ∅).2 with hA
  set seeded := (seed_teams together [] ∅).1 with hseeded
  have hmemseed : teamsMembers seeded = A.val := hseed.1
  have hsubA : A ⊆ players.toFinset := hseed.2
  set remaining := players.filter (fun p => p ∉ A) with hrem
  have hinv0 : teamsMembers seeded + (remaining : Multiset Player)
      = (players : Multiset Player) := by
    rw [hmemseed]
    refine Multiset.ext.mpr fun p => ?_
    rw [Multiset.count_add, Multiset.coe_count, Multiset.coe_count]
    by_cases hp : p ∈ A
    · have hpl : p ∈ players := by
        have := hsubA hp
        exact List.mem_toFinset.mp this
      have h1 : Multiset.count p A.val = 1 :=
        Multiset.count_eq_one_of_mem A.nodup hp
      have h2 : remaining.count p = 0 := by
        rw [List.count_eq_zero]
        intro hmem
        rcases List.mem_filter.mp hmem with ⟨-, hnot⟩
        simp [hp] at hnot
      rw [h1, h2, List.count_eq_one_of_mem hnd hpl]
    · have h1 : Multiset.count p A.val = 0 :=
        Multiset.count_eq_zero_of_not_mem hp
      have h2 : remaining.count p = players.count p := by
        rw [hrem]
        rw [List.count_filter]
        simp [hp]
      rw [h1, h2, Nat.zero_add]
  have hrlen : remaining.length + A.card = players.length := by
    have hcard := congrArg Multiset.card hinv0
    rw [Multiset.card_add, hmemseed] at hcard
    simp only [Multiset.coe_card] at hcard
    have : Multiset.card A.val = A.card := rfl
    omega
  have hcap0 : remaining.length ≤ cap (players.length / k) k 0 (players.length % k) seeded := by
    have hge := cap_ge (players.length / k) k 0 (players.length % k) seeded
    have hsum := sumCur_le seeded k 0
    rw [List.drop_zero, hmemseed] at hsum
    have hsA : Multiset.card A.val = A.card := rfl
    have hdm : k * (players.length / k) + players.length % k = players.length :=
      Nat.div_add_mod _ _
    have hmlt : players.length % k < k := Nat.mod_lt _ (by omega)
    have hmin : min (players.length % k) k = players.length % k := by omega
    rw [hmin] at hge
    omega
  have hmain := distribute_main players hnd k 0 seeded remaining
    (players.length / k) (players.length % k) hinv0 hcap0
    (fun _ => Or.inl (Nat.zero_le _))
  show teamsMembers (merge_loop _ _ k) = _
  exact merge_loop_members players hnd _ _ k hk hmain.1

/-- Exact behaviour of the distribution loop in the no-together-groups
case: starting with `i` teams already finalised and exactly enough
remaining players, each round creates one fresh team of exactly its target
size. -/
theorem distribute_sizes : ∀ (n i : Nat) (teams : List Team) (remaining : List Player)
    (ts extra : Nat),
    teams.length = i → remaining.Nodup → remaining.length = n * ts + extra →
    extra ≤ n → 1 ≤ ts →
    (distribute n i teams remaining ts extra).1.length = i + n
    ∧ (∀ j, j < i → curAt (distribute n i teams remaining ts extra).1 j = curAt teams j)
    ∧ (∀ d, d < n → curAt (distribute n i teams remaining ts extra).1 (i + d)
        = ts + (if d < extra then 1 else 0)) := by
  intro n
  induction n with
  | zero =>
    intro i teams remaining ts extra hlen hnd hrlen hex hts
    refine ⟨by simpa [distribute] using hlen, fun j hj => rfl, fun d hd => by omega⟩
  | succ m ih =>
    intro i teams remaining ts extra hlen hnd hrlen hex hts
    rw [distribute_succ]
    have hcur0 : curAt teams i = 0 := by
      unfold curAt
      rw [List.getD_eq_default _ _ (le_of_eq hlen)]
      rfl
    rw [hcur0]
    have hrlen' : remaining.length = m * ts + ts + extra := by
      rw [hrlen, Nat.succ_mul]
    have htle : (ts + (if 0 < extra then 1 else 0)) - 0 ≤ remaining.length := by
      split <;> omega
    have hrne : remaining ≠ [] := by
      intro h0
      rw [h0] at hrlen'
      simp at hrlen'
      omega
    have hfresh : ∀ p ∈ remaining, p ∉ (teams.getD i default).players := by
      intro p hp
      rw [List.getD_eq_default _ _ (le_of_eq hlen)]
      show p ∉ (∅ : Finset Player)
      simp
    have hcard := fill_card (ts + (if 0 < extra then 1 else 0))
      ((ts + (if 0 < extra then 1 else 0)) - 0) 0 rfl teams i remaining
      (le_of_eq hlen.symm) hnd hfresh htle
    rw [hcur0] at hcard
    have hflen := fill_length (ts + (if 0 < extra then 1 else 0))
      ((ts + (if 0 < extra then 1 else 0)) - 0) 0 rfl teams i remaining
      (le_of_eq hlen.symm)
    have hcond : (0 < ts + (if 0 < extra then 1 else 0) ∧ remaining ≠ []) :=
      ⟨by split <;> omega, hrne⟩
    have hflen' : (fill_team teams i 0 (ts + (if 0 < extra then 1 else 0)) remaining).1.length
        = i + 1 := by
      rw [hflen, if_pos hcond, hlen]
      omega
    have hfrlen := fill_rem_length (ts + (if 0 < extra then 1 else 0))
      ((ts + (if 0 < extra then 1 else 0)) - 0) 0 rfl teams i remaining
    have hfrlen' : (fill_team teams i 0 (ts + (if 0 < extra then 1 else 0)) remaining).2.length
        = m * ts + (extra - 1) := by
      rw [hfrlen, hrlen']
      split <;> omega
    have hfrtake := fill_rem_take (ts + (if 0 < extra then 1 else 0))
      ((ts + (if 0 < extra then 1 else 0)) - 0) 0 rfl teams i remaining
    have hfrnd : (fill_team teams i 0 (ts + (if 0 < extra then 1 else 0)) remaining).2.Nodup := by
      rw [hfrtake]
      exact hnd.sublist (List.take_sublist _ _)
    have hgd := fun (j : Nat) (hj : j ≠ i) =>
      fill_getD_ne (ts + (if 0 < extra then 1 else 0))
        ((ts + (if 0 < extra then 1 else 0)) - 0) 0 rfl teams i remaining j hj
    have := ih (i + 1) _ _ ts (extra - 1) hflen' hfrnd hfrlen' (by omega) hts
    refine ⟨by rw [this.1]; omega, ?_, ?_⟩
    · intro j hj
      rw [this.2.1 j (by omega), curAt_congr (hgd j (by omega))]
    · intro d hd
      cases d with
      | zero =>
        have h1 := this.2.1 i (by omega)
        rw [hcard] at h1
        simpa using h1
      | succ e =>
        have heq : i + (e + 1) = (i + 1) + e := by omega
        rw [heq, this.2.2 e (by omega)]
        congr 1
        split <;> split <;> omega

theorem initialize_teams_no_groups (players : List Player) (k : Nat) :
    initialize_teams players k []
      = merge_loop
          (distribute k 0 [] players (players.length / k) (players.length % k)).1.length
          (distribute k 0 [] players (players.length / k) (players.length % k)).1 k := by
  unfold initialize_teams
  have h1 : seed_teams [] [] (∅ : Finset Player) = ([], ∅) := rfl
  have h2 : (players.filter fun p => p ∉ (([] : List Team), (∅ : Finset Player)).2)
      = players := by simp
  simp only [h1, h2]

/-- With no together-groups, a duplicate-free roster of `N ≥ k` players and
`k ≥ 1` teams, `initialize_teams` returns exactly `k` teams with the sizes
`N / k` or `N / k + 1`, the first `N % k` teams taking the extra player. -/
theorem initialize_teams_sizes (players : List Player) (k : Nat)
    (hnd : players.Nodup) (hk : 1 ≤ k) (hkn : k ≤ players.length) :
    (initialize_teams players k []).length = k ∧
    ∀ i, i < k → curAt (initialize_teams players k []) i
      = players.length / k + (if i < players.length % k then 1 else 0) := by
  have hds := distribute_sizes k 0 [] players (players.length / k) (players.length % k)
    rfl hnd (by have := Nat.div_add_mod players.length k; omega)
    (by have := Nat.mod_lt players.length (y := k) (by omega); omega)
    (by rw [Nat.one_le_div_iff (by omega)]; exact hkn)
  have hR : (distribute k 0 [] players (players.length / k) (players.length % k)).1.length
      = k := by simpa using hds.1
  rw [initialize_teams_no_groups, merge_loop_of_le _ _ _ (by rw [hR]; omega)]
  refine ⟨hR, fun i hi => ?_⟩
  simpa using hds.2.2 i hi

/-- One iteration's random draws in `simulated_annealing` (lines 144-163):
the two distinct team positions and the member of each that
`random.sample` / `random.choice` pick inside `swap_between_teams`, and
the outcome of the comparison `random.random() < math.exp(...)` of
line 153. -/
structure Ev where
  ia : Nat
  ib : Nat
  pa : Player
  pb : Player
  accept_worse : Bool

/-- The loop state of `simulated_annealing` (lines 139-142). -/
structure SAState where
  teams : List Team
  cur : ℤ
  best_teams : List Team
  best : ℤ
  temp : ℚ

/-- One iteration of `simulated_annealing` (lines 144-163): copy the
current teams, attempt one swap on the copy, accept it as the current
state when strictly better or when the Metropolis draw succeeded; on
acceptance record it as best when strictly better than the best; cool the
temperature in either case. -/
def sa_step (together : List (List Player)) (apart : List (Player × List Player))
    (cooling_rate : ℚ) (ev : Ev) (st : SAState) : SAState :=
  let new_teams := swap_between_teams st.teams ev.ia ev.ib ev.pa ev.pb together apart
  let new_imb := calculate_imbalance new_teams
  if new_imb < st.cur ∨ ev.accept_worse = true then
    { teams := new_teams
      cur := new_imb
      best_teams := if new_imb < st.best then new_teams else st.best_teams
      best := if new_imb < st.best then new_imb else st.best
      temp := st.temp * cooling_rate }
  else { st with temp := st.temp * cooling_rate }

/-- The Metropolis comparison of line 153,
`random.random() < math.exp((current_imbalance - new_imbalance) / temp)`,
for a drawn uniform value `u`. -/
def metropolis (u : ℝ) (cur new_imb : ℤ) (temp : ℚ) : Prop :=
  u < Real.exp (((cur : ℝ) - (new_imb : ℝ)) / (temp : ℝ))

/-- The `while temp > min_temp` loop of lines 144-163.  The list `moves`
carries the randomness, one entry per iteration; it is consumed only while
the loop guard holds. -/
def sa_run (together : List (List Player)) (apart : List (Player × List Player))
    (cooling_rate min_temp : ℚ) : List Ev → SAState → SAState
  | [], st => st
  | ev :: rest, st =>
    if min_temp < st.temp then
      sa_run together apart cooling_rate min_temp rest
        (sa_step together apart cooling_rate ev st)
    else st

/-- `simulated_annealing` (lines 135-165): initialise the teams, then run
the cooling loop, returning the best partition found and its imbalance. -/
def simulated_annealing (players : List Player) (num_teams : Nat)
    (together : List (List Player)) (apart : List (Player × List Player))
    (initial_temp cooling_rate min_temp : ℚ) (moves : List Ev) : List Team × ℤ :=
  let teams := initialize_teams players num_teams together
  let current_imbalance := calculate_imbalance teams
  let stf := sa_run together apart cooling_rate min_temp moves
    ⟨teams, current_imbalance, teams, current_imbalance, initial_temp⟩
  (stf.best_teams, stf.best)

/-- What `random.sample(teams, 2)` and `random.choice` guarantee about one
iteration's draws: two distinct in-range team positions and a member of
each chosen team. -/
def validEv (teams : List Team) (ev : Ev) : Prop :=
  ev.ia ≠ ev.ib ∧ ev.ia < teams.length ∧ ev.ib < teams.length ∧
    ev.pa ∈ (teams.getD ev.ia default).players ∧ ev.pb ∈ (teams.getD ev.ib default).players

instance (teams : List Team) (ev : Ev) : Decidable (validEv teams ev) := by
  unfold validEv
  infer_instance

/-- Validity of a whole stream of draws: every iteration that the loop
actually executes receives draws valid for the state it is applied to. -/
def validRun (together : List (List Player)) (apart : List (Player × List Player))
    (cooling_rate min_temp : ℚ) : List Ev → SAState → Prop
  | [], _ => True
  | ev :: rest, st =>
    min_temp < st.temp →
      validEv st.teams ev ∧
        validRun together apart cooling_rate min_temp rest
          (sa_step together apart cooling_rate ev st)

/-- The together-team constraint `ilp_team_allocation` encodes on line 208:
for a group and a team `t`, the sum of the group members' assignment
variables for `t` equals the group size times the first member's variable
for `t`.  Variables are keyed by player name, as in the source. -/
def together_team_constraint (x : String → Nat → ℤ) (group : List Player) (t : Nat) : Prop :=
  (group.map fun p => x p.name t).sum = group.length * x (group.headD default).name t

/-- The apart constraint of lines 211-215: the two players' assignment
variables for the same team sum to at most 1. -/
def apart_team_constraint (x : String → Nat → ℤ) (p1 p2 : Player) (t : Nat) : Prop :=
  x p1.name t + x p2.name t ≤ 1

/-- The exactly-one-team constraint of lines 193-194. -/
def one_team_constraint (x : String → Nat → ℤ) (p : Player) (num_teams : Nat) : Prop :=
  ((List.range num_teams).map fun t => x p.name t).sum = 1

/-- One player of the decode loop of `ilp_team_allocation` (lines 222-226):
the player joins the first team `t` whose assignment variable
`x[player.name, t]` evaluates to 1, and is silently skipped when no team
qualifies. -/
def ilp_decode_step (x : String → Nat → ℤ) (num_teams : Nat)
    (teams : List (List Player)) (p : Player) : List (List Player) :=
  match (List.range num_teams).find? (fun t => x p.name t == 1) with
  | some t => teams.set t (teams.getD t [] ++ [p])
  | none => teams

instance (x : String → Nat → ℤ) (group : List Player) (t : Nat) :
    Decidable (together_team_constraint x group t) := by
  unfold together_team_constraint
  infer_instance

instance (x : String → Nat → ℤ) (p1 p2 : Player) (t : Nat) :
    Decidable (apart_team_constraint x p1 p2 t) := by
  unfold apart_team_constraint
  infer_instance

instance (x : String → Nat → ℤ) (p : Player) (num_teams : Nat) :
    Decidable (one_team_constraint x p num_teams) := by
  unfold one_team_constraint
  infer_instance

/-- The decode loop of `ilp_team_allocation` (lines 220-227). -/
def ilp_decode (x : String → Nat → ℤ) (players : List Player) (num_teams : Nat) :
    List (List Player) :=
  players.foldl (ilp_decode_step x num_teams) (List.replicate num_teams [])

theorem mem_two_teams_absurd (players : List Player) (hnd : players.Nodup)
    (teams : List Team) {i j : Nat} (hne : i ≠ j) (hi : i < teams.length)
    (hj : j < teams.length) (hmem : teamsMembers teams = (players : Multiset Player))
    {p : Player} (h1 : p ∈ (teams.getD i default).players)
    (h2 : p ∈ (teams.getD j default).players) : False := by
  have hle := pair_val_le teams i j hne hi hj
  have hcnt := Multiset.count_le_of_le p hle
  rw [hmem, Multiset.count_add] at hcnt
  have hc1 : Multiset.count p (teams.getD i default).players.val = 1 :=
    Multiset.count_eq_one_of_mem (teams.getD i default).players.nodup h1
  have hc2 : Multiset.count p (teams.getD j default).players.val = 1 :=
    Multiset.count_eq_one_of_mem (teams.getD j default).players.nodup h2
  have hcP : Multiset.count p (players : Multiset Player) ≤ 1 := by
    rw [Multiset.coe_count]
    exact List.nodup_iff_count_le_one.mp hnd p
  omega

/-- A legal swap conserves the multiset of team members. -/
theorem swap_members (players : List Player) (hnd : players.Nodup)
    (teams : List Team) (ia ib : Nat) (pa pb : Player)
    (together : List (List Player)) (apart : List (Player × List Player))
    (hne : ia ≠ ib) (hia : ia < teams.length) (hib : ib < teams.length)
    (hpa : pa ∈ (teams.getD ia default).players)
    (hpb : pb ∈ (teams.getD ib default).players)
    (hmem : teamsMembers teams = (players : Multiset Player)) :
    teamsMembers (swap_between_teams teams ia ib pa pb together apart)
      = (players : Multiset Player) := by
  have hpbA : pb ∉ (teams.getD ia default).players := fun h =>
    mem_two_teams_absurd players hnd teams hne hia hib hmem h hpb
  have hpaB : pa ∉ (teams.getD ib default).players := fun h =>
    mem_two_teams_absurd players hnd teams hne hia hib hmem hpa h
  simp only [swap_between_teams]
  split_ifs with h1 h2 h3
  · exact hmem
  · exact hmem
  · exact hmem
  · simp only [Team.swap_players, if_pos hpa, if_pos hpb]
    set A := teams.getD ia default with hA
    set B := teams.getD ib default with hB
    set E := A.players.val.erase pa with hE
    set F := B.players.val.erase pb with hF
    have hAval : A.players.val = {pa} + E := by
      rw [hE, Multiset.singleton_add, Multiset.cons_erase (Finset.mem_def.mp hpa)]
    have hBval : B.players.val = {pb} + F := by
      rw [hF, Multiset.singleton_add, Multiset.cons_erase (Finset.mem_def.mp hpb)]
    have hvalA : (⟨insert pb (A.players.erase pa)⟩ : Team).players.val = {pb} + E := by
      show (insert pb (A.players.erase pa)).val = _
      rw [Finset.insert_val, Multiset.ndinsert_of_not_mem
        (fun h => hpbA (Finset.mem_of_mem_erase h)), Finset.erase_val, ← hE,
        Multiset.singleton_add]
    have hvalB : (⟨insert pa (B.players.erase pb)⟩ : Team).players.val = {pa} + F := by
      show (insert pa (B.players.erase pb)).val = _
      rw [Finset.insert_val, Multiset.ndinsert_of_not_mem
        (fun h => hpaB (Finset.mem_of_mem_erase h)), Finset.erase_val, ← hF,
        Multiset.singleton_add]
    have hstep1 := teamsMembers_set teams ia ⟨insert pb (A.players.erase pa)⟩ hia
    rw [hvalA, ← hA, hAval] at hstep1
    have hstep2 := teamsMembers_set (teams.set ia ⟨insert pb (A.players.erase pa)⟩) ib
      ⟨insert pa (B.players.erase pb)⟩ (by rw [List.length_set]; exact hib)
    rw [hvalB, getD_set_ne _ _ _ _ hne, ← hB, hBval] at hstep2
    have e1 : teamsMembers (teams.set ia ⟨insert pb (A.players.erase pa)⟩) + {pa}
        = teamsMembers teams + {pb} := by
      have := hstep1
      rw [← add_assoc, ← add_assoc] at this
      exact add_right_cancel this
    have e2 : teamsMembers ((teams.set ia ⟨insert pb (A.players.erase pa)⟩).set ib
          ⟨insert pa (B.players.erase pb)⟩) + {pb}
        = teamsMembers (teams.set ia ⟨insert pb (A.players.erase pa)⟩) + {pa} := by
      have := hstep2
      rw [← add_assoc, ← add_assoc] at this
      exact add_right_cancel this
    rw [e1, hmem] at e2
    exact add_right_cancel e2

theorem sa_step_temp (together : List (List Player)) (apart : List (Player × List Player))
    (cooling_rate : ℚ) (ev : Ev) (st : SAState) :
    (sa_step together apart cooling_rate ev st).temp = st.temp * cooling_rate := by
  simp only [sa_step]
  split <;> rfl

theorem sa_step_best_le (together : List (List Player)) (apart : List (Player × List Player))
    (cooling_rate : ℚ) (ev : Ev) (st : SAState) :
    (sa_step together apart cooling_rate ev st).best ≤ st.best := by
  simp only [sa_step]
  split
  · dsimp only
    split
    · rename_i h
      exact le_of_lt h
    · exact le_rfl
  · exact le_rfl

theorem sa_run_best_le (together : List (List Player)) (apart : List (Player × List Player))
    (cooling_rate min_temp : ℚ) : ∀ (moves : List Ev) (st : SAState),
    (sa_run together apart cooling_rate min_temp moves st).best ≤ st.best := by
  intro moves
  induction moves with
  | nil => intro st; exact le_rfl
  | cons ev rest ih =>
    intro st
    simp only [sa_run]
    split
    · exact le_trans (ih _) (sa_step_best_le _ _ _ _ _)
    · exact le_rfl

/-- The properness invariant carried by the annealing loop: both the
current and the best team lists hold exactly the roster. -/
def sa_inv (players : List Player) (st : SAState) : Prop :=
  teamsMembers st.teams = (players : Multiset Player)
    ∧ teamsMembers st.best_teams = (players : Multiset Player)

theorem sa_step_inv (players : List Player) (hnd : players.Nodup)
    (together : List (List Player)) (apart : List (Player × List Player))
    (cooling_rate : ℚ) (ev : Ev) (st : SAState) (hv : validEv st.teams ev)
    (h : sa_inv players st) : sa_inv players (sa_step together apart cooling_rate ev st) := by
  have hswap := swap_members players hnd st.teams ev.ia ev.ib ev.pa ev.pb together apart
    hv.1 hv.2.1 hv.2.2.1 hv.2.2.2.1 hv.2.2.2.2 h.1
  simp only [sa_step]
  split
  · refine ⟨hswap, ?_⟩
    dsimp only
    split
    · exact hswap
    · exact h.2
  · exact h

theorem sa_run_inv (players : List Player) (hnd : players.Nodup)
    (together : List (List Player)) (apart : List (Player × List Player))
    (cooling_rate min_temp : ℚ) : ∀ (moves : List Ev) (st : SAState),
    validRun together apart cooling_rate min_temp moves st →
    sa_inv players st →
    sa_inv players (sa_run together apart cooling_rate min_temp moves st) := by
  intro moves
  induction moves with
  | nil => intro st _ h; exact h
  | cons ev rest ih =>
    intro st hvr h
    simp only [sa_run]
    split
    · rename_i hguard
      rcases hvr hguard with ⟨hve, hvr'⟩
      exact ih _ hvr' (sa_step_inv players hnd together apart cooling_rate ev st hve h)
    · exact h

theorem sa_run_temp (together : List (List Player)) (apart : List (Player × List Player))
    (cooling_rate min_temp : ℚ) : ∀ (moves : List Ev) (st : SAState),
    (sa_run together apart cooling_rate min_temp moves st).temp ≤ min_temp ∨
    (sa_run together apart cooling_rate min_temp moves st).temp
      = st.temp * cooling_rate ^ moves.length := by
  intro moves
  induction moves with
  | nil =>
    intro st
    right
    simp [sa_run]
  | cons ev rest ih =>
    intro st
    simp only [sa_run]
    split
    · rcases ih (sa_step together apart cooling_rate ev st) with h | h
      · exact Or.inl h
      · right
        rw [h, sa_step_temp, List.length_cons, pow_succ]
        ring
    · rename_i hguard
      exact Or.inl (le_of_not_lt hguard)

/-- The loop makes no further progress once the guard has failed. -/
theorem sa_run_stopped (together : List (List Player)) (apart : List (Player × List Player))
    (cooling_rate min_temp : ℚ) (moves : List Ev) (st : SAState)
    (h : st.temp ≤ min_temp) :
    sa_run together apart cooling_rate min_temp moves st = st := by
  cases moves with
  | nil => rfl
  | cons ev rest =>
    simp only [sa_run]
    rw [if_neg (not_lt.mpr h)]

/-- With a positive cooling rate below 1, the temperature schedule reaches
the floor after a bounded number of iterations, whatever the draws. -/
theorem sa_run_terminates (T0 cooling_rate min_temp : ℚ) (hT0 : 0 < T0)
    (h0 : 0 < cooling_rate) (h1 : cooling_rate < 1) (hmt : 0 < min_temp) :
    ∃ n : Nat, ∀ (together : List (List Player)) (apart : List (Player × List Player))
      (moves : List Ev) (st : SAState), st.temp = T0 → n ≤ moves.length →
      (sa_run together apart cooling_rate min_temp moves st).temp ≤ min_temp := by
  obtain ⟨n, hn⟩ := exists_pow_lt_of_lt_one (div_pos hmt hT0) h1
  refine ⟨n, fun together apart moves st hst hlen => ?_⟩
  rcases sa_run_temp together apart cooling_rate min_temp moves st with h | h
  · exact h
  · rw [h, hst]
    have hpow : cooling_rate ^ moves.length ≤ cooling_rate ^ n :=
      pow_le_pow_of_le_one (le_of_lt h0) (le_of_lt h1) hlen
    have hlt : cooling_rate ^ n < min_temp / T0 := hn
    have : T0 * cooling_rate ^ moves.length ≤ T0 * cooling_rate ^ n :=
      mul_le_mul_of_nonneg_left hpow (le_of_lt hT0)
    have h2 : T0 * cooling_rate ^ n < min_temp := by
      rw [mul_comm]
      exact (lt_div_iff hT0).mp hlt
    linarith

theorem getD_mem_of_lt {α : Type} (l : List α) (d : α) (i : Nat) (h : i < l.length) :
    l.getD i d ∈ l := by
  rw [List.getD_eq_getElem _ _ h]
  exact List.getElem_mem h

theorem getD_set_ne_gen {α : Type} (l : List α) (d : α) (m n : Nat) (a : α) (h : m ≠ n) :
    (l.set m a).getD n d = l.getD n d := by
  simp [List.getD_eq_getElem?_getD, List.getElem?_set_ne h]

theorem getD_set_self_gen {α : Type} (l : List α) (d : α) (i : Nat) (a : α)
    (h : i < l.length) : (l.set i a).getD i d = a := by
  simp [List.getD_eq_getElem?_getD, List.getElem?_set_self, h]

theorem countP_set {α : Type} (P : α → Bool) (d : α) :
    ∀ (l : List α) (i : Nat) (a : α), i < l.length →
    (l.set i a).countP P + (if P (l.getD i d) then 1 else 0)
      = l.countP P + (if P a then 1 else 0) := by
  intro l
  induction l with
  | nil => intro i a h; simp at h
  | cons b bs ih =>
    intro i a h
    cases i with
    | zero =>
      simp only [List.set, List.getD_cons_zero, List.countP_cons]
      split_ifs <;> omega
    | succ n =>
      have hn : n < bs.length := by simpa using h
      have := ih n a hn
      simp only [List.set, List.getD_cons_succ, List.countP_cons]
      split_ifs at * <;> omega

/-- A member of a decoded team was assigned to that team by the solver
values. -/
theorem ilp_decode_fold_mem (x : String → Nat → ℤ) (k : Nat) :
    ∀ (ps : List Player) (acc : List (List Player)), acc.length = k →
    (∀ t q, q ∈ acc.getD t [] → x q.name t = 1) →
    ∀ t q, q ∈ (ps.foldl (ilp_decode_step x k) acc).getD t [] → x q.name t = 1 := by
  intro ps
  induction ps with
  | nil => intro acc hlen hacc t q hq; exact hacc t q hq
  | cons p ps ih =>
    intro acc hlen hacc t q hq
    rw [List.foldl_cons] at hq
    refine ih (ilp_decode_step x k acc p) ?_ ?_ t q hq
    · unfold ilp_decode_step
      split
      · rw [List.length_set]
        exact hlen
      · exact hlen
    · intro t' q' hq'
      unfold ilp_decode_step at hq'
      rcases hfind : (List.range k).find? (fun t => x p.name t == 1) with _ | t0
      · rw [hfind] at hq'
        exact hacc t' q' hq'
      · rw [hfind] at hq'
        have ht0 := List.find?_some hfind
        have ht0' : x p.name t0 = 1 := by simpa using ht0
        by_cases ht : t' = t0
        · subst ht
          have ht0k : t' < k := List.mem_range.mp (List.mem_of_find?_eq_some hfind)
          rw [getD_set_self_gen _ _ _ _ (by omega)] at hq'
          rcases List.mem_append.mp hq' with hold | hnew
          · exact hacc t' q' hold
          · rcases List.mem_singleton.mp hnew with rfl
            exact ht0'
        · rw [getD_set_ne_gen _ _ _ _ _ (fun hh => ht hh.symm)] at hq'
          exact hacc t' q' hq'

theorem ilp_decode_mem (x : String → Nat → ℤ) (players : List Player) (k : Nat)
    (t : Nat) (q : Player) (hq : q ∈ (ilp_decode x players k).getD t []) :
    x q.name t = 1 := by
  refine ilp_decode_fold_mem x k players (List.replicate k []) (by simp) ?_ t q hq
  intro t' q' hq'
  exfalso
  rcases Nat.lt_or_ge t' k with hlt | hge
  · rw [List.getD_eq_getElem _ _ (by simpa using hlt)] at hq'
    simp at hq'
  · rw [List.getD_eq_default _ _ (by simpa using hge)] at hq'
    simp at hq'

/-- Processing players other than `p` never changes which teams contain
`p`. -/
theorem ilp_decode_fold_count_ne (x : String → Nat → ℤ) (k : Nat) (p : Player) :
    ∀ (ps : List Player) (acc : List (List Player)), p ∉ ps → acc.length = k →
    (ps.foldl (ilp_decode_step x k) acc).countP (fun l => decide (p ∈ l))
      = acc.countP (fun l => decide (p ∈ l)) := by
  intro ps
  induction ps with
  | nil => intro acc _ _; rfl
  | cons q ps ih =>
    intro acc hnot hlen
    rw [List.foldl_cons]
    have hqp : q ≠ p := fun h => hnot (by simp [h])
    have hstep : (ilp_decode_step x k acc q).countP (fun l => decide (p ∈ l))
        = acc.countP (fun l => decide (p ∈ l)) := by
      unfold ilp_decode_step
      rcases hfind : (List.range k).find? (fun t => x q.name t == 1) with _ | t0
      · rfl
      · show List.countP (fun l => decide (p ∈ l)) (acc.set t0 (acc.getD t0 [] ++ [q]))
            = List.countP (fun l => decide (p ∈ l)) acc
        have ht0k : t0 < k := List.mem_range.mp (List.mem_of_find?_eq_some hfind)
        have hc := countP_set (fun l => decide (p ∈ l)) [] acc t0
          (acc.getD t0 [] ++ [q]) (by omega)
        by_cases hp : p ∈ acc.getD t0 []
        · rw [if_pos (by simpa using hp),
            if_pos (by simp only [decide_eq_true_eq]; exact List.mem_append.mpr (Or.inl hp))] at hc
          omega
        · rw [if_neg (by simpa using hp),
            if_neg (by
              simp only [decide_eq_true_eq]
              intro hx
              rcases List.mem_append.mp hx with hmem | hmem
              · exact hp hmem
              · exact hqp (List.mem_singleton.mp hmem).symm)] at hc
          omega
    have hlen' : (ilp_decode_step x k acc q).length = k := by
      unfold ilp_decode_step
      split
      · rw [List.length_set]; exact hlen
      · exact hlen
    rw [ih _ (fun h => hnot (by simp [h])) hlen', hstep]

/-- A player with a satisfiable assignment column, not yet present in any
accumulator team, ends in exactly one decoded team. -/
theorem ilp_decode_fold_count (x : String → Nat → ℤ) (k : Nat) (p : Player) :
    ∀ (ps : List Player) (acc : List (List Player)), ps.Nodup → p ∈ ps →
    acc.length = k → (∀ l ∈ acc, p ∉ l) →
    (∃ t, t < k ∧ x p.name t = 1) →
    (ps.foldl (ilp_decode_step x k) acc).countP (fun l => decide (p ∈ l)) = 1 := by
  intro ps
  induction ps with
  | nil => intro acc _ h; simp at h
  | cons q ps ih =>
    intro acc hnd hmem hlen hnotin hex
    rw [List.foldl_cons]
    by_cases hqp : q = p
    · subst hqp
      have hnotps : q ∉ ps := (List.nodup_cons.mp hnd).1
      rcases hex with ⟨t, htk, hxt⟩
      rcases hfind : (List.range k).find? (fun t => x q.name t == 1) with _ | t0
      · exfalso
        have := List.find?_eq_none.mp hfind t (List.mem_range.mpr htk)
        simp [hxt] at this
      · have ht0k : t0 < k := List.mem_range.mp (List.mem_of_find?_eq_some hfind)
        have hstep : (ilp_decode_step x k acc q).countP (fun l => decide (q ∈ l)) = 1 := by
          unfold ilp_decode_step
          rw [hfind]
          show List.countP (fun l => decide (q ∈ l)) (acc.set t0 (acc.getD t0 [] ++ [q])) = 1
          have hc := countP_set (fun l => decide (q ∈ l)) [] acc t0
            (acc.getD t0 [] ++ [q]) (by omega)
          have hacc0 : acc.countP (fun l => decide (q ∈ l)) = 0 := by
            rw [List.countP_eq_zero]
            intro l hl
            simpa using hnotin l hl
          have hd0 : ¬ q ∈ acc.getD t0 [] := by
            rcases Nat.lt_or_ge t0 acc.length with hlt | hge
            · exact hnotin _ (getD_mem_of_lt acc [] t0 hlt)
            · rw [List.getD_eq_default _ _ hge]
              simp
          rw [if_neg (by simpa using hd0), if_pos (by simp)] at hc
          omega
        have hlen' : (ilp_decode_step x k acc q).length = k := by
          unfold ilp_decode_step
          split
          · rw [List.length_set]; exact hlen
          · exact hlen
        rw [ilp_decode_fold_count_ne x k q ps _ hnotps hlen', hstep]
    · have hstep : ∀ l ∈ ilp_decode_step x k acc q, p ∉ l := by
        intro l hl
        unfold ilp_decode_step at hl
        rcases hfind : (List.range k).find? (fun t => x q.name t == 1) with _ | t0
        · rw [hfind] at hl
          exact hnotin l hl
        · rw [hfind] at hl
          rcases List.mem_or_eq_of_mem_set hl with hold | hnew
          · exact hnotin l hold
          · subst hnew
            intro hpl
            rcases List.mem_append.mp hpl with hold | hsingle
            · rcases Nat.lt_or_ge t0 acc.length with hlt | hge
              · exact hnotin _ (getD_mem_of_lt acc [] t0 hlt) hold
              · rw [List.getD_eq_default _ _ hge] at hold
                simp at hold
            · exact hqp (List.mem_singleton.mp hsingle).symm
      have hlen' : (ilp_decode_step x k acc q).length = k := by
        unfold ilp_decode_step
        split
        · rw [List.length_set]; exact hlen
        · exact hlen
      exact ih _ (List.nodup_cons.mp hnd).2 (by
        rcases List.mem_cons.mp hmem with h | h
        · exact absurd h.symm hqp
        · exact h) hlen' hstep hex

/-- Properness of the ILP decode: when the solver's values give the player
some team (as the exactly-one constraint guarantees), the player lands in
exactly one decoded team. -/
theorem ilp_decode_proper (x : String → Nat → ℤ) (players : List Player) (k : Nat)
    (hnd : players.Nodup) :
    ∀ p ∈ players, (∃ t, t < k ∧ x p.name t = 1) →
    (ilp_decode x players k).countP (fun l => decide (p ∈ l)) = 1 := by
  intro p hp hex
  exact ilp_decode_fold_count x k p players (List.replicate k []) hnd hp
    (by simp) (by intro l hl; rw [List.eq_of_mem_replicate hl]; simp) hex

theorem int_sum_le_length : ∀ (l : List ℤ), (∀ a ∈ l, a = 0 ∨ a = 1) →
    l.sum ≤ (l.length : ℤ) := by
  intro l
  induction l with
  | nil => intro _; simp
  | cons a as ih =>
    intro h
    have ha := h a (by simp)
    have := ih (fun b hb => h b (by simp [hb]))
    simp only [List.sum_cons, List.length_cons]
    push_cast
    omega

theorem int_sum_nonneg : ∀ (l : List ℤ), (∀ a ∈ l, a = 0 ∨ a = 1) → 0 ≤ l.sum := by
  intro l
  induction l with
  | nil => intro _; simp
  | cons a as ih =>
    intro h
    have ha := h a (by simp)
    have := ih (fun b hb => h b (by simp [hb]))
    simp only [List.sum_cons]
    omega

theorem int_all_one_of_sum_eq_length : ∀ (l : List ℤ), (∀ a ∈ l, a = 0 ∨ a = 1) →
    l.sum = (l.length : ℤ) → ∀ a ∈ l, a = 1 := by
  intro l
  induction l with
  | nil => intro _ _ a ha; simp at ha
  | cons b bs ih =>
    intro h hsum a ha
    have hb := h b (by simp)
    have hup := int_sum_le_length bs (fun c hc => h c (by simp [hc]))
    have hlo := int_sum_nonneg bs (fun c hc => h c (by simp [hc]))
    simp only [List.sum_cons, List.length_cons] at hsum
    push_cast at hsum
    have hb1 : b = 1 := by omega
    have hbs : bs.sum = (bs.length : ℤ) := by omega
    rcases List.mem_cons.mp ha with rfl | ha
    · exact hb1
    · exact ih (fun c hc => h c (by simp [hc])) hbs a ha

theorem int_all_zero_of_sum_eq_zero : ∀ (l : List ℤ), (∀ a ∈ l, a = 0 ∨ a = 1) →
    l.sum = 0 → ∀ a ∈ l, a = 0 := by
  intro l
  induction l with
  | nil => intro _ _ a ha; simp at ha
  | cons b bs ih =>
    intro h hsum a ha
    have hb := h b (by simp)
    have hup := int_sum_le_length bs (fun c hc => h c (by simp [hc]))
    have hlo := int_sum_nonneg bs (fun c hc => h c (by simp [hc]))
    simp only [List.sum_cons] at hsum
    have hb0 : b = 0 := by omega
    have hbs : bs.sum = 0 := by omega
    rcases List.mem_cons.mp ha with rfl | ha
    · exact hb0
    · exact ih (fun c hc => h c (by simp [hc])) hbs a ha

/-- The together-constraint encoding forces every group member's variable
to coincide with the representative's. -/
theorem together_constraint_forces (x : String → Nat → ℤ) (group : List Player) (t : Nat)
    (hne : group ≠ [])
    (h01 : ∀ p ∈ group, x p.name t = 0 ∨ x p.name t = 1)
    (hcon : together_team_constraint x group t) :
    ∀ p ∈ group, x p.name t = x (group.headD default).name t := by
  have hhead : group.headD default ∈ group := by
    cases group with
    | nil => exact absurd rfl hne
    | cons a as => simp
  have h01' : ∀ a ∈ group.map (fun p => x p.name t), a = 0 ∨ a = 1 := by
    intro a ha
    rcases List.mem_map.mp ha with ⟨p, hp, rfl⟩
    exact h01 p hp
  unfold together_team_constraint at hcon
  rcases h01 _ hhead with h0 | h1
  · rw [h0, mul_zero] at hcon
    intro p hp
    rw [h0]
    exact int_all_zero_of_sum_eq_zero _ h01' hcon _ (List.mem_map.mpr ⟨p, hp, rfl⟩)
  · rw [h1, mul_one] at hcon
    intro p hp
    rw [h1]
    refine int_all_one_of_sum_eq_length _ h01' ?_ _ (List.mem_map.mpr ⟨p, hp, rfl⟩)
    rw [hcon]
    simp

/-- The exactly-one constraint plus 0/1 values yields a team for the
player. -/
theorem one_team_gives_mem (x : String → Nat → ℤ) (p : Player) (k : Nat)
    (h01 : ∀ t, t < k → x p.name t = 0 ∨ x p.name t = 1)
    (hcon : one_team_constraint x p k) :
    ∃ t, t < k ∧ x p.name t = 1 := by
  unfold one_team_constraint at hcon
  by_contra hno
  push_neg at hno
  have hzero : ∀ t ∈ List.range k, x p.name t = 0 := by
    intro t ht
    have htk := List.mem_range.mp ht
    rcases h01 t htk with h | h
    · exact h
    · exact absurd h (hno t htk)
  have : ((List.range k).map fun t => x p.name t).sum = 0 := by
    apply List.sum_eq_zero
    intro a ha
    rcases List.mem_map.mp ha with ⟨t, ht, rfl⟩
    exact hzero t ht
  omega

/-- `initialize_teams` returns a proper partition of the roster. -/
theorem initialize_teams_proper (players : List Player) (k : Nat)
    (together : List (List Player)) (hnd : players.Nodup) (hk : 1 ≤ k)
    (hg : ∀ g ∈ together, ∀ p ∈ g, p ∈ players) :
    proper players (initialize_teams players k together) :=
  proper_of_members players _ hnd (initialize_teams_members players k together hnd hk hg)

/-- `simulated_annealing` returns a proper partition of the roster. -/
theorem simulated_annealing_proper (players : List Player) (k : Nat)
    (together : List (List Player)) (apart : List (Player × List Player))
    (initial_temp cooling_rate min_temp : ℚ) (moves : List Ev)
    (hnd : players.Nodup) (hk : 1 ≤ k)
    (hg : ∀ g ∈ together, ∀ p ∈ g, p ∈ players)
    (hvr : validRun together apart cooling_rate min_temp moves
      ⟨initialize_teams players k together,
        calculate_imbalance (initialize_teams players k together),
        initialize_teams players k together,
        calculate_imbalance (initialize_teams players k together), initial_temp⟩) :
    proper players
      (simulated_annealing players k together apart initial_temp cooling_rate min_temp
        moves).1 := by
  have hinit := initialize_teams_members players k together hnd hk hg
  have hrun := sa_run_inv players hnd together apart cooling_rate min_temp moves
    ⟨initialize_teams players k together,
      calculate_imbalance (initialize_teams players k together),
      initialize_teams players k together,
      calculate_imbalance (initialize_teams players k together), initial_temp⟩
    hvr ⟨hinit, hinit⟩
  exact proper_of_members players _ hnd hrun.2

/-- Models the in-place `random.shuffle(players)` on line 91: the function
receives the roster in its shuffled order, and the caller's list afterwards
holds exactly that order.  First component: the teams built; second
component: the caller's roster list as it stands after the call. -/
def initialize_teams_run (shuffled : List Player) (num_teams : Nat)
    (together : List (List Player)) : List Team × List Player :=
  (initialize_teams shuffled num_teams together, shuffled)

/-- Claim C1.  The code contradicts its own comment "Ensure swapping
maintains apart constraints": at this input the spec's `breaks_apart`
predicate holds (team 0 contains C, listed as apart from the incoming B),
yet the code — which checks each outgoing player against its own current
team — performs the swap and produces a partition placing B and C, a
symmetric apart pair, on the same team. -/
theorem C1_swap_checks_outgoing_player :
    breaks_apart_spec ⟨"A", 0⟩ ⟨"B", 0⟩ ⟨{⟨"A", 0⟩, ⟨"C", 0⟩}⟩ ⟨{⟨"B", 0⟩}⟩
        [(⟨"B", 0⟩, [⟨"C", 0⟩]), (⟨"C", 0⟩, [⟨"B", 0⟩])] = true
    ∧ breaks_apart_code ⟨"A", 0⟩ ⟨"B", 0⟩ ⟨{⟨"A", 0⟩, ⟨"C", 0⟩}⟩ ⟨{⟨"B", 0⟩}⟩
        [(⟨"B", 0⟩, [⟨"C", 0⟩]), (⟨"C", 0⟩, [⟨"B", 0⟩])] = false
    ∧ swap_between_teams [⟨{⟨"A", 0⟩, ⟨"C", 0⟩}⟩, ⟨{⟨"B", 0⟩}⟩] 0 1 ⟨"A", 0⟩ ⟨"B", 0⟩ []
        [(⟨"B", 0⟩, [⟨"C", 0⟩]), (⟨"C", 0⟩, [⟨"B", 0⟩])]
        = [⟨{⟨"B", 0⟩, ⟨"C", 0⟩}⟩, ⟨{⟨"A", 0⟩}⟩]
    ∧ violates_apart
        (swap_between_teams [⟨{⟨"A", 0⟩, ⟨"C", 0⟩}⟩, ⟨{⟨"B", 0⟩}⟩] 0 1 ⟨"A", 0⟩ ⟨"B", 0⟩ []
          [(⟨"B", 0⟩, [⟨"C", 0⟩]), (⟨"C", 0⟩, [⟨"B", 0⟩])])
        ⟨"B", 0⟩ ⟨"C", 0⟩ = true := by
  decide

/-- Claim C2, counterexample.  B is listed as apart from A, the instance is
feasible (4 entities, 2 teams), yet `initialize_teams` — which never
consults the apart map — returns a partition with A and B on one team for
this shuffle order. -/
theorem C2_counterexample :
    (⟨"B", 1⟩ : Player) ∈ apartGet [((⟨"A", 10⟩ : Player), [⟨"B", 1⟩])] ⟨"A", 10⟩
    ∧ violates_apart
        (initialize_teams [⟨"A", 10⟩, ⟨"B", 1⟩, ⟨"C", 10⟩, ⟨"D", 1⟩] 2 [])
        ⟨"A", 10⟩ ⟨"B", 1⟩ = true := by
  decide

/-- Claim C2, amended: only the exact path guarantees apart separation.
Any solver values satisfying the encoded apart constraint for a stored
pair never place both of its players in the same decoded team. -/
theorem C2_ilp_separates_apart_pairs (x : String → Nat → ℤ) (players : List Player)
    (k : Nat) (apart : List (Player × List Player)) (p1 p2 : Player) (t : Nat)
    (hpair : p2 ∈ apartGet apart p1)
    (hcon : apart_team_constraint x p1 p2 t) :
    ¬(p1 ∈ (ilp_decode x players k).getD t [] ∧ p2 ∈ (ilp_decode x players k).getD t []) := by
  rintro ⟨h1, h2⟩
  have e1 := ilp_decode_mem x players k t p1 h1
  have e2 := ilp_decode_mem x players k t p2 h2
  unfold apart_team_constraint at hcon
  omega

/-- Witness for the amended C2 at a concrete instance. -/
theorem C2_ilp_separates_apart_pairs_witness :
    ¬((⟨"A", 10⟩ : Player) ∈ (ilp_decode (fun _ _ => 0) [⟨"A", 10⟩, ⟨"B", 1⟩] 1).getD 0 []
      ∧ (⟨"B", 1⟩ : Player) ∈ (ilp_decode (fun _ _ => 0) [⟨"A", 10⟩, ⟨"B", 1⟩] 1).getD 0 []) :=
  C2_ilp_separates_apart_pairs (fun _ _ => 0) [⟨"A", 10⟩, ⟨"B", 1⟩] 1
    [((⟨"A", 10⟩ : Player), [⟨"B", 1⟩])] ⟨"A", 10⟩ ⟨"B", 1⟩ 0 (by decide) (by decide)

/-- Claim C3.  On an infeasible instance (a together-group of all three
entities with three teams of target size one) `initialize_teams` raises no
error: it silently returns a single oversized team instead of three.  And
the ILP decode, fed solver values that assign nobody (as after an
infeasible or failed solve), silently returns empty teams, dropping every
player. -/
theorem C3_silent_on_infeasible :
    initialize_teams [⟨"A", 1⟩, ⟨"B", 1⟩, ⟨"C", 1⟩] 3 [[⟨"A", 1⟩, ⟨"B", 1⟩, ⟨"C", 1⟩]]
      = [⟨{⟨"A", 1⟩, ⟨"B", 1⟩, ⟨"C", 1⟩}⟩]
    ∧ (initialize_teams [⟨"A", 1⟩, ⟨"B", 1⟩, ⟨"C", 1⟩] 3
        [[⟨"A", 1⟩, ⟨"B", 1⟩, ⟨"C", 1⟩]]).length ≠ 3
    ∧ ilp_decode (fun _ _ => 0) [⟨"A", 1⟩, ⟨"B", 1⟩, ⟨"C", 1⟩] 3 = [[], [], []] := by
  decide

/-- Claim C4, counterexample.  `ilp_team_allocation` ignores the solve
status: fed solver values that assign nobody — what `pulp.value` yields
after an unsolved model, since `None == 1` is false — the decoded
partition returned to the caller omits the roster entity entirely (it
appears in zero teams, not one). -/
theorem C4_counterexample :
    (⟨"A", 1⟩ : Player) ∈ [(⟨"A", 1⟩ : Player)]
    ∧ (ilp_decode (fun _ _ => 0) [⟨"A", 1⟩] 1).countP
        (fun l => decide ((⟨"A", 1⟩ : Player) ∈ l)) = 0 := by
  decide

/-- Claim C4, amended.  Every partition returned by `initialize_teams` and
by `simulated_annealing` (under the guarantees the random draws satisfy by
construction) contains each roster entity exactly once; the ILP decode
does too whenever the solver's values are 0/1 and satisfy the encoded
exactly-one constraint. -/
theorem C4_every_entity_in_exactly_one_team :
    (∀ (players : List Player) (k : Nat) (together : List (List Player)),
      players.Nodup → 1 ≤ k → (∀ g ∈ together, ∀ p ∈ g, p ∈ players) →
      proper players (initialize_teams players k together))
    ∧ (∀ (players : List Player) (k : Nat) (together : List (List Player))
        (apart : List (Player × List Player)) (initial_temp cooling_rate min_temp : ℚ)
        (moves : List Ev),
        players.Nodup → 1 ≤ k → (∀ g ∈ together, ∀ p ∈ g, p ∈ players) →
        validRun together apart cooling_rate min_temp moves
          ⟨initialize_teams players k together,
            calculate_imbalance (initialize_teams players k together),
            initialize_teams players k together,
            calculate_imbalance (initialize_teams players k together), initial_temp⟩ →
        proper players
          (simulated_annealing players k together apart initial_temp cooling_rate min_temp
            moves).1)
    ∧ (∀ (x : String → Nat → ℤ) (players : List Player) (k : Nat),
        players.Nodup →
        ∀ p ∈ players, (∀ t, t < k → x p.name t = 0 ∨ x p.name t = 1) →
        one_team_constraint x p k →
        (ilp_decode x players k).countP (fun l => decide (p ∈ l)) = 1) := by
  refine ⟨initialize_teams_proper, ?_, ?_⟩
  · intro players k together apart initial_temp cooling_rate min_temp moves hnd hk hg hvr
    exact simulated_annealing_proper players k together apart initial_temp cooling_rate
      min_temp moves hnd hk hg hvr
  · intro x players k hnd p hp h01 hcon
    exact ilp_decode_proper x players k hnd p hp (one_team_gives_mem x p k h01 hcon)

/-- Witness for C4 at concrete instances of all three components. -/
theorem C4_every_entity_in_exactly_one_team_witness :
    proper [⟨"A", 10⟩, ⟨"B", 1⟩] (initialize_teams [⟨"A", 10⟩, ⟨"B", 1⟩] 2 [])
    ∧ proper [⟨"A", 10⟩, ⟨"B", 1⟩]
        (simulated_annealing [⟨"A", 10⟩, ⟨"B", 1⟩] 2 [] [] 1 (1/2) (1/4)
          [⟨0, 1, ⟨"B", 1⟩, ⟨"A", 10⟩, false⟩]).1
    ∧ (ilp_decode (fun n t => if n = "A" ∧ t = 0 then 1 else 0) [⟨"A", 10⟩] 1).countP
        (fun l => decide ((⟨"A", 10⟩ : Player) ∈ l)) = 1 :=
  ⟨C4_every_entity_in_exactly_one_team.1 [⟨"A", 10⟩, ⟨"B", 1⟩] 2 [] (by decide) (by decide)
      (by simp),
   C4_every_entity_in_exactly_one_team.2.1 [⟨"A", 10⟩, ⟨"B", 1⟩] 2 [] [] 1 (1/2) (1/4)
      [⟨0, 1, ⟨"B", 1⟩, ⟨"A", 10⟩, false⟩] (by decide) (by decide) (by simp)
      (fun _ => ⟨by decide, trivial⟩),
   C4_every_entity_in_exactly_one_team.2.2 (fun n t => if n = "A" ∧ t = 0 then 1 else 0)
      [⟨"A", 10⟩] 1 (by decide) ⟨"A", 10⟩ (by decide)
      (by intro t ht; interval_cases t <;> simp) (by decide)⟩

/-- Claim C5, counterexample.  With one entity and two requested teams the
initializer returns a single team, not two. -/
theorem C5_counterexample :
    (initialize_teams [⟨"A", 1⟩] 2 []).length = 1 ∧ (1 : Nat) ≠ 2 := by
  decide

/-- Claim C5, amended: restricted to instances with no together-groups and
at least as many entities as teams, `initialize_teams` returns exactly `k`
teams with sizes `N / k` or `N / k + 1`, the first `N mod k` teams taking
the extra member. -/
theorem C5_sizes_no_groups (players : List Player) (k : Nat) (hnd : players.Nodup)
    (hk : 1 ≤ k) (hkn : k ≤ players.length) :
    (initialize_teams players k []).length = k
    ∧ ∀ i, i < k → curAt (initialize_teams players k []) i
        = players.length / k + (if i < players.length % k then 1 else 0) :=
  initialize_teams_sizes players k hnd hk hkn

/-- Witness for the amended C5: three entities, two teams. -/
theorem C5_sizes_no_groups_witness :
    (initialize_teams [⟨"A", 3⟩, ⟨"B", 2⟩, ⟨"C", 1⟩] 2 []).length = 2
    ∧ ∀ i, i < 2 → curAt (initialize_teams [⟨"A", 3⟩, ⟨"B", 2⟩, ⟨"C", 1⟩] 2 []) i
        = ([(⟨"A", 3⟩ : Player), ⟨"B", 2⟩, ⟨"C", 1⟩].length) / 2
          + (if i < ([(⟨"A", 3⟩ : Player), ⟨"B", 2⟩, ⟨"C", 1⟩].length) % 2 then 1 else 0) :=
  C5_sizes_no_groups [⟨"A", 3⟩, ⟨"B", 2⟩, ⟨"C", 1⟩] 2 (by decide) (by decide) (by decide)

/-- Claim C6.  The recorded best imbalance never increases across an
iteration, and the best imbalance `simulated_annealing` returns is at most
the imbalance of the initial partition. -/
theorem C6_best_imbalance_monotone :
    (∀ (together : List (List Player)) (apart : List (Player × List Player))
      (cooling_rate : ℚ) (ev : Ev) (st : SAState),
      (sa_step together apart cooling_rate ev st).best ≤ st.best)
    ∧ (∀ (players : List Player) (k : Nat) (together : List (List Player))
        (apart : List (Player × List Player)) (initial_temp cooling_rate min_temp : ℚ)
        (moves : List Ev),
        (simulated_annealing players k together apart initial_temp cooling_rate min_temp
          moves).2 ≤ calculate_imbalance (initialize_teams players k together)) :=
  ⟨sa_step_best_le,
   fun players k together apart initial_temp cooling_rate min_temp moves =>
     sa_run_best_le together apart cooling_rate min_temp moves
       ⟨initialize_teams players k together,
         calculate_imbalance (initialize_teams players k together),
         initialize_teams players k together,
         calculate_imbalance (initialize_teams players k together), initial_temp⟩⟩

/-- Claim C7.  When the drawn Bool reflects the Metropolis comparison, one
iteration accepts the mutated clone as the current state exactly when its
imbalance strictly improves or the Metropolis draw succeeds, and the
temperature is multiplied by the cooling rate in either case. -/
theorem C7_metropolis_acceptance (together : List (List Player))
    (apart : List (Player × List Player)) (cooling_rate : ℚ) (ev : Ev) (st : SAState)
    (u : ℝ)
    (hdraw : ev.accept_worse = true ↔
      metropolis u st.cur
        (calculate_imbalance
          (swap_between_teams st.teams ev.ia ev.ib ev.pa ev.pb together apart)) st.temp) :
    (calculate_imbalance (swap_between_teams st.teams ev.ia ev.ib ev.pa ev.pb together apart)
          < st.cur
        ∨ metropolis u st.cur
            (calculate_imbalance
              (swap_between_teams st.teams ev.ia ev.ib ev.pa ev.pb together apart)) st.temp →
      (sa_step together apart cooling_rate ev st).teams
          = swap_between_teams st.teams ev.ia ev.ib ev.pa ev.pb together apart
        ∧ (sa_step together apart cooling_rate ev st).cur
          = calculate_imbalance
              (swap_between_teams st.teams ev.ia ev.ib ev.pa ev.pb together apart))
    ∧ (¬(calculate_imbalance (swap_between_teams st.teams ev.ia ev.ib ev.pa ev.pb together apart)
          < st.cur
        ∨ metropolis u st.cur
            (calculate_imbalance
              (swap_between_teams st.teams ev.ia ev.ib ev.pa ev.pb together apart)) st.temp) →
      (sa_step together apart cooling_rate ev st).teams = st.teams
        ∧ (sa_step together apart cooling_rate ev st).cur = st.cur)
    ∧ (sa_step together apart cooling_rate ev st).temp = st.temp * cooling_rate := by
  refine ⟨?_, ?_, sa_step_temp together apart cooling_rate ev st⟩
  · intro hc
    have hcond : calculate_imbalance
          (swap_between_teams st.teams ev.ia ev.ib ev.pa ev.pb together apart) < st.cur
        ∨ ev.accept_worse = true := by
      rcases hc with h | h
      · exact Or.inl h
      · exact Or.inr (hdraw.mpr h)
    simp only [sa_step, if_pos hcond]
    constructor <;> trivial
  · intro hc
    have hcond : ¬(calculate_imbalance
          (swap_between_teams st.teams ev.ia ev.ib ev.pa ev.pb together apart) < st.cur
        ∨ ev.accept_worse = true) := by
      rintro (h | h)
      · exact hc (Or.inl h)
      · exact hc (Or.inr (hdraw.mp h))
    simp only [sa_step, if_neg hcond]
    constructor <;> trivial

/-- Witness for C7 at a concrete state and draw. -/
theorem C7_metropolis_acceptance_witness :
    (calculate_imbalance (swap_between_teams [] 0 0 ⟨"A", 0⟩ ⟨"A", 0⟩ [] []) < (0 : ℤ)
        ∨ metropolis 0 0
            (calculate_imbalance (swap_between_teams [] 0 0 ⟨"A", 0⟩ ⟨"A", 0⟩ [] [])) 1 →
      (sa_step [] [] 1 ⟨0, 0, ⟨"A", 0⟩, ⟨"A", 0⟩, true⟩ ⟨[], 0, [], 0, 1⟩).teams
          = swap_between_teams [] 0 0 ⟨"A", 0⟩ ⟨"A", 0⟩ [] []
        ∧ (sa_step [] [] 1 ⟨0, 0, ⟨"A", 0⟩, ⟨"A", 0⟩, true⟩ ⟨[], 0, [], 0, 1⟩).cur
          = calculate_imbalance (swap_between_teams [] 0 0 ⟨"A", 0⟩ ⟨"A", 0⟩ [] []))
    ∧ (¬(calculate_imbalance (swap_between_teams [] 0 0 ⟨"A", 0⟩ ⟨"A", 0⟩ [] []) < (0 : ℤ)
        ∨ metropolis 0 0
            (calculate_imbalance (swap_between_teams [] 0 0 ⟨"A", 0⟩ ⟨"A", 0⟩ [] [])) 1) →
      (sa_step [] [] 1 ⟨0, 0, ⟨"A", 0⟩, ⟨"A", 0⟩, true⟩ ⟨[], 0, [], 0, 1⟩).teams = []
        ∧ (sa_step [] [] 1 ⟨0, 0, ⟨"A", 0⟩, ⟨"A", 0⟩, true⟩ ⟨[], 0, [], 0, 1⟩).cur = 0)
    ∧ (sa_step [] [] 1 ⟨0, 0, ⟨"A", 0⟩, ⟨"A", 0⟩, true⟩ ⟨[], 0, [], 0, 1⟩).temp = 1 * 1 :=
  C7_metropolis_acceptance [] [] 1 ⟨0, 0, ⟨"A", 0⟩, ⟨"A", 0⟩, true⟩ ⟨[], 0, [], 0, 1⟩ 0
    ⟨fun _ => Real.exp_pos _, fun _ => rfl⟩

/-- Claim C8.  Any 0/1 assignment of the variables satisfying the encoded
together-constraint for a group and a team gives every member of the group
the representative's value for that team: the group is co-located. -/
theorem C8_together_encoding_forces_colocation (x : String → Nat → ℤ)
    (group : List Player) (t : Nat) (hne : group ≠ [])
    (h01 : ∀ p ∈ group, x p.name t = 0 ∨ x p.name t = 1)
    (hcon : together_team_constraint x group t) :
    ∀ p ∈ group, x p.name t = x (group.headD default).name t :=
  together_constraint_forces x group t hne h01 hcon

/-- Witness for C8 at a concrete group, assignment and member. -/
theorem C8_together_encoding_forces_colocation_witness :
    (fun (n : String) (_ : Nat) => if n = "A" ∨ n = "B" then (1 : ℤ) else 0)
        (⟨"B", 0⟩ : Player).name 0
      = (fun (n : String) (_ : Nat) => if n = "A" ∨ n = "B" then (1 : ℤ) else 0)
          ([(⟨"A", 0⟩ : Player), ⟨"B", 0⟩].headD default).name 0 :=
  C8_together_encoding_forces_colocation
    (fun (n : String) (_ : Nat) => if n = "A" ∨ n = "B" then (1 : ℤ) else 0)
    [(⟨"A", 0⟩ : Player), ⟨"B", 0⟩] 0 (by decide) (by decide) (by decide)
    ⟨"B", 0⟩ (by decide)

/-- Claim C9, counterexample.  `random.shuffle` reorders the caller's
roster list in place: after a call whose shuffle produced the reversed
order, the caller's list no longer equals the original. -/
theorem C9_counterexample :
    List.Perm [(⟨"B", 1⟩ : Player), ⟨"A", 10⟩] [⟨"A", 10⟩, ⟨"B", 1⟩]
    ∧ (initialize_teams_run [⟨"B", 1⟩, ⟨"A", 10⟩] 1 []).2 ≠ [⟨"A", 10⟩, ⟨"B", 1⟩] := by
  constructor
  · decide
  · decide

/-- Claim C9, amended: entities, together-groups and the apart-map are
never altered, and the roster keeps exactly its entities — every produced
team member is an unchanged roster entity and the multiset of members is
the roster itself — but the caller's list may come back in a different
order. -/
theorem C9_read_only_up_to_order (original shuffled : List Player) (k : Nat)
    (together : List (List Player)) (hperm : shuffled.Perm original)
    (hnd : shuffled.Nodup) (hk : 1 ≤ k)
    (hg : ∀ g ∈ together, ∀ p ∈ g, p ∈ shuffled) :
    ((initialize_teams_run shuffled k together).2).Perm original
    ∧ teamsMembers (initialize_teams_run shuffled k together).1
        = (shuffled : Multiset Player) :=
  ⟨hperm, initialize_teams_members shuffled k together hnd hk hg⟩

/-- Witness for the amended C9. -/
theorem C9_read_only_up_to_order_witness :
    ((initialize_teams_run [(⟨"B", 1⟩ : Player), ⟨"A", 10⟩] 1 []).2).Perm
        [⟨"A", 10⟩, ⟨"B", 1⟩]
    ∧ teamsMembers (initialize_teams_run [(⟨"B", 1⟩ : Player), ⟨"A", 10⟩] 1 []).1
        = (([⟨"B", 1⟩, ⟨"A", 10⟩] : List Player) : Multiset Player) :=
  C9_read_only_up_to_order [⟨"A", 10⟩, ⟨"B", 1⟩] [⟨"B", 1⟩, ⟨"A", 10⟩] 1 []
    (by decide) (by decide) (by decide) (by simp)

/-- Claim C10.  For positive initial and minimum temperatures and a cooling
rate strictly between 0 and 1, the annealing loop terminates: after a
bounded number of iterations the temperature is at or below the floor, the
loop makes no further progress once the guard fails, and it always
executes another iteration while the guard holds. -/
theorem C10_loop_terminates_at_floor (T0 cooling_rate min_temp : ℚ)
    (hT0 : 0 < T0) (h0 : 0 < cooling_rate) (h1 : cooling_rate < 1) (hmt : 0 < min_temp) :
    (∃ n : Nat, ∀ (together : List (List Player)) (apart : List (Player × List Player))
      (moves : List Ev) (st : SAState), st.temp = T0 → n ≤ moves.length →
      (sa_run together apart cooling_rate min_temp moves st).temp ≤ min_temp)
    ∧ (∀ (together : List (List Player)) (apart : List (Player × List Player))
        (moves : List Ev) (st : SAState), st.temp ≤ min_temp →
        sa_run together apart cooling_rate min_temp moves st = st)
    ∧ (∀ (together : List (List Player)) (apart : List (Player × List Player))
        (ev : Ev) (rest : List Ev) (st : SAState), min_temp < st.temp →
        sa_run together apart cooling_rate min_temp (ev :: rest) st
          = sa_run together apart cooling_rate min_temp rest
              (sa_step together apart cooling_rate ev st)) := by
  refine ⟨sa_run_terminates T0 cooling_rate min_temp hT0 h0 h1 hmt, ?_, ?_⟩
  · intro together apart moves st h
    exact sa_run_stopped together apart cooling_rate min_temp moves st h
  · intro together apart ev rest st h
    simp only [sa_run]
    rw [if_pos h]

/-- Witness for C10 at concrete parameters. -/
theorem C10_loop_terminates_at_floor_witness :
    (∃ n : Nat, ∀ (together : List (List Player)) (apart : List (Player × List Player))
      (moves : List Ev) (st : SAState), st.temp = 1 → n ≤ moves.length →
      (sa_run together apart (1/2) (1/2) moves st).temp ≤ 1/2)
    ∧ (∀ (together : List (List Player)) (apart : List (Player × List Player))
        (moves : List Ev) (st : SAState), st.temp ≤ 1/2 →
        sa_run together apart (1/2) (1/2) moves st = st)
    ∧ (∀ (together : List (List Player)) (apart : List (Player × List Player))
        (ev : Ev) (rest : List Ev) (st : SAState), (1 : ℚ)/2 < st.temp →
        sa_run together apart (1/2) (1/2) (ev :: rest) st
          = sa_run together apart (1/2) (1/2) rest (sa_step together apart (1/2) ev st)) :=
  C10_loop_terminates_at_floor 1 (1/2) (1/2) (by norm_num) (by norm_num) (by norm_num)
    (by norm_num)

end Sorting
